import Mathlib

/-!
Verification of the telegram-llm-bot core (Go sources) against its
natural-language specification.

The Go program is shallowly embedded: each Go function relevant to a claim
is translated into a computable Lean definition; the per-conversation
dispatch goroutines and channels are modelled as an explicit labelled
transition system over a registry state.  `int64` values are modelled as
`Int` (no arithmetic other than equality is performed on them in the
source), byte strings as `List Char` where per-unit lengths matter
(`splitAndSend`, `convertMarkdownToHTML`) and as `String` elsewhere.
-/

namespace Bot

/-! ## Data model (Go `ChatMessage`, `Preset`, `UserState`) -/

/-- Go `ChatMessage{Role, Content string}`. -/
structure ChatMessage where
  role : String
  content : String
deriving DecidableEq, Repr

/-- Go `Preset{Model, SystemPrompt string}`. -/
structure Preset where
  model : String
  systemPrompt : String
deriving DecidableEq, Repr

/-- Go `UserState`.  The Go `map[string]Preset` is modelled as an
association list (first binding for a key wins, as produced by
`presetsInsert`). -/
structure UserState where
  model : String
  systemPrompt : String
  history : List ChatMessage
  presets : List (String × Preset)
  pendingInput : String
deriving DecidableEq, Repr

/-- `state.Presets[slot] = p`: Go map assignment, modelled as
replace-or-append on the association list. -/
def presetsInsert (m : List (String × Preset)) (k : String) (p : Preset) :
    List (String × Preset) :=
  match m with
  | [] => [(k, p)]
  | (k', p') :: t => if k' = k then (k, p) :: t else (k', p') :: presetsInsert t k p

/-! ## History trimming (`sendChat`, part_002 lines 264-271)

```go
state.History = append(state.History, ChatMessage{Role: "user", Content: message})
state.History = append(state.History, ChatMessage{Role: "assistant", Content: assistantReply})
if len(state.History) > 40 {
    state.History = state.History[len(state.History)-40:]
}
```
-/

/-- `history[len(history)-40:]` guarded by `len(history) > 40`. -/
def trimHistory (h : List ChatMessage) : List ChatMessage :=
  if 40 < h.length then h.drop (h.length - 40) else h

/-- The two appends of `sendChat`'s success path followed by the trim. -/
def appendExchange (h : List ChatMessage) (userMsg assistantReply : String) :
    List ChatMessage :=
  trimHistory (h ++ [⟨"user", userMsg⟩, ⟨"assistant", assistantReply⟩])

/-- A history built exclusively from (user, assistant) exchange pairs. -/
def pairsFlatten (ps : List (String × String)) : List ChatMessage :=
  ps.flatMap fun p => [⟨"user", p.1⟩, ⟨"assistant", p.2⟩]

/-! ## Allow-list check (`isAllowed`, part_002 lines 28-55) -/

/-- One element of the configured `allowed_users` slice.  The Go code
switches on the dynamic type `int64`/`int`/`float64`; for a `float64`
item the only operation performed on it is the truncating conversion
`int64(v)`, so the item is modelled by that truncation. -/
inductive AllowedItem where
  | i64 (v : Int)
  | iv (v : Int)
  | f64trunc (v : Int)
  | other
deriving DecidableEq, Repr

/-- Result of `viper.Get("allowed_users")` as discriminated by the source:
`nil`, a value that is not a `[]interface{}`, or a list of items. -/
inductive AllowedConfig where
  | absent
  | notAList
  | list (items : List AllowedItem)
deriving DecidableEq, Repr

/-- One arm of the `switch v := item.(type)` comparison in the loop body. -/
def itemMatches (userID : Int) : AllowedItem → Bool
  | .i64 v => v == userID
  | .iv v => v == userID
  | .f64trunc v => v == userID
  | .other => false

/-- Go `isAllowed`. -/
def isAllowed (cfg : AllowedConfig) (userID : Int) : Bool :=
  match cfg with
  | .absent => true
  | .notAList => true
  | .list items =>
    if items.length == 0 then true
    else items.any (itemMatches userID)

/-! ## State store (`loadUserState` / `saveUserState`, part_002 lines 85-114) -/

/-- The durable record for one conversation id: the file may be missing
(`os.ReadFile` error), syntactically corrupt (`json.Unmarshal` error is
discarded and the pre-initialised defaults survive), or a valid JSON
serialisation of a `UserState`. -/
inductive StoreRecord where
  | missing
  | corrupt
  | valid (s : UserState)
deriving DecidableEq, Repr

/-- The durable store: one record per conversation id. -/
def Store := Int → StoreRecord

/-- The fresh state `loadUserState` pre-initialises before reading the
file: configured default model, fixed default system prompt, empty
presets; `History` and `PendingInput` take their zero values. -/
def defaultState (defaultModel : String) : UserState :=
  { model := defaultModel
    systemPrompt := "You are a helpful assistant."
    history := []
    presets := []
    pendingInput := "" }

/-- `state.Presets["1"] = Preset{Model: state.Model, SystemPrompt: state.SystemPrompt}`. -/
def seedPresetOne (s : UserState) : UserState :=
  { s with presets := presetsInsert s.presets "1" ⟨s.model, s.systemPrompt⟩ }

/-- Go `loadUserState`:  on read error the defaults are seeded with
preset "1" and returned; on a corrupt record the `json.Unmarshal` error
is ignored (Go's `Unmarshal` validates syntax before writing to the
target, so the defaults survive intact) and the empty-presets branch
seeds preset "1"; on a valid record the decoded state is returned,
seeding preset "1" only if its presets are empty. -/
def loadUserState (defaultModel : String) (rec : StoreRecord) : UserState :=
  match rec with
  | .missing => seedPresetOne (defaultState defaultModel)
  | .corrupt => seedPresetOne (defaultState defaultModel)
  | .valid s => if s.presets.length == 0 then seedPresetOne s else s

/-- Go `saveUserState`: marshal the state and write it as the record for
this id (a `UserState` always marshals, and a successful write replaces
the record wholesale). -/
def saveUserState (st : Store) (chatID : Int) (s : UserState) : Store :=
  fun id => if id = chatID then .valid s else st id

/-! ## Completion client (`sendChat`, part_002 lines 197-277)

The HTTP exchange is modelled by its observable outcome: either the
round trip failed (`httpClient.Do` error, which includes timeouts), or a
response with a status code and a body arrived.  The body is classified
by what `json.NewDecoder(resp.Body).Decode(&response)` does with it: a
body that is a well-formed non-streaming `ChatResponse` decodes to its
list of choice contents; an event-stream (SSE) body or arbitrary garbage
makes the decode fail.  -/

/-- Response body shapes, classified by decodability as `ChatResponse`. -/
inductive RespBody where
  | json (choices : List String)
  | sse (fragments : List String) (terminated : Bool)
  | garbage
deriving DecidableEq, Repr

/-- Outcome of `httpClient.Do(req)`. -/
inductive HttpResult where
  | transportError
  | response (status : Nat) (body : RespBody)
deriving DecidableEq, Repr

/-- `json.NewDecoder(resp.Body).Decode(&response)`: only a body that is a
well-formed non-streaming `ChatResponse` JSON object decodes; an SSE
stream or garbage is a decode error. -/
def decodeChatResponse : RespBody → Option (List String)
  | .json choices => some choices
  | .sse _ _ => none
  | .garbage => none

/-- The message sequence `sendChat` builds: system prompt (if non-empty),
then the history, then the new user turn (part_002 lines 204-216). -/
def buildMessages (s : UserState) (message : String) : List ChatMessage :=
  (if s.systemPrompt = "" then [] else [⟨"system", s.systemPrompt⟩])
    ++ s.history ++ [⟨"user", message⟩]

/-- Result of one `sendChat` call: the returned `(string, error)` pair,
the state after the call, and whether `saveUserState` was invoked. -/
structure SendChatResult where
  reply : Except String String
  state : UserState
  saved : Bool
deriving Repr

/-- Go `sendChat`, given the outcome of the HTTP round trip:
status check (lines 246-249), decode (lines 252-256), empty-choices
early return (lines 258-260), then the history append + trim + save
success path (lines 264-276). -/
def sendChat (s : UserState) (message : String) (up : HttpResult) :
    SendChatResult :=
  match up with
  | .transportError => ⟨.error "transport", s, false⟩
  | .response status body =>
    if status < 200 ∨ 300 ≤ status then
      ⟨.error ("API request failed with status " ++ toString status), s, false⟩
    else
      match decodeChatResponse body with
      | none => ⟨.error "failed to parse response", s, false⟩
      | some [] => ⟨.ok "", s, false⟩
      | some (c :: _) =>
        ⟨.ok c, { s with history := appendExchange s.history message c }, true⟩

/-- The failure conditions named by the spec: transport/timeout error,
non-2xx status, or an unparseable body. -/
def upstreamFails (up : HttpResult) : Bool :=
  match up with
  | .transportError => true
  | .response status body =>
    decide (status < 200 ∨ 300 ≤ status) || (decodeChatResponse body).isNone

/-! ## Per-conversation dispatch queue
(`userQueues`, the OnText handler, part_002 lines 576-592, and
`processMessageQueue`, lines 280-322)

Each conversation id owns a buffered Go channel `make(chan string, 10)`
and one worker goroutine ranging over it.  The registry and the workers
are modelled as a labelled transition system: a state per conversation
id, and events for the operations the source performs on it.  The
channel's `closed` flag is part of the state because the `range` loop
terminates exactly when the channel is closed and drained; no statement
in the source ever closes one of these channels, so no event sets it. -/

/-- Per-conversation component of the registry state. -/
structure ConvState where
  /-- Entry exists in `userQueues` (and its worker goroutine is alive). -/
  present : Bool
  /-- Channel buffer contents, oldest first (capacity 10). -/
  pending : List String
  /-- Worker is inside `sendChat` for a message it dequeued. -/
  busy : Bool
  /-- Channel has been closed (no source operation does this). -/
  closed : Bool
deriving DecidableEq, Repr

/-- No entry in `userQueues` for this id yet. -/
def ConvState.init : ConvState := ⟨false, [], false, false⟩

/-- Registry: every conversation id starts with no entry. -/
def Registry := Int → ConvState

def Registry.init : Registry := fun _ => ConvState.init

/-- Events: the operations the source performs on the registry.
`arrive id m accepted` is one execution of the OnText tail (create the
queue and spawn the worker if absent, then the non-blocking
`select`-send, `accepted` recording which branch was taken);
`recv id m` is one `range` iteration dequeuing `m` and entering
`sendChat`; `finish id` is that `sendChat` call returning (and the reply
being delivered); `exitW id` is the `range` loop terminating, after
which the worker deletes the `userQueues` entry and exits. -/
inductive Ev where
  | arrive (id : Int) (m : String) (accepted : Bool)
  | recv (id : Int) (m : String)
  | finish (id : Int)
  | exitW (id : Int)
deriving DecidableEq, Repr

/-- Replace the component of one conversation id. -/
def Registry.set (r : Registry) (id : Int) (c : ConvState) : Registry :=
  fun j => if j = id then c else r j

/-- `userQueues[c.Chat().ID] == nil` branch of OnText: reuse the entry
if present, otherwise `make(chan string, 10)` plus `go
processMessageQueue(...)` create a fresh one. -/
def effConv (c : ConvState) : ConvState :=
  if c.present then c else ⟨true, [], false, false⟩

/-- The OnText enqueue tail (part_002 lines 576-592) as a pure function:
get or create the queue (spawning the worker), then the non-blocking
`select` send.  The send succeeds iff the buffer has room (capacity 10):
a receiver can only be blocked on an empty buffer, so buffer room is
exactly the non-blocking-send condition.  Returns the new registry and
the reply text sent back when the send was rejected. -/
def onTextEnqueue (r : Registry) (id : Int) (m : String) :
    Registry × Option String :=
  if (effConv (r id)).pending.length < 10 then
    (r.set id { effConv (r id) with pending := (effConv (r id)).pending ++ [m] },
      none)
  else
    (r.set id (effConv (r id)),
      some "Please wait, your previous request is still processing.")

/-- One step of the system.  `none` means the event is not a possible
behaviour of the source in the given state. -/
def step (r : Registry) : Ev → Option Registry
  | .arrive id m accepted =>
    if accepted = (onTextEnqueue r id m).2.isNone then
      some (onTextEnqueue r id m).1
    else none
  | .recv id m =>
    if (r id).present ∧ ¬(r id).busy ∧ (r id).pending.head? = some m then
      some (r.set id { r id with pending := (r id).pending.tail, busy := true })
    else none
  | .finish id =>
    if (r id).present ∧ (r id).busy then
      some (r.set id { r id with busy := false })
    else none
  | .exitW id =>
    -- `for msg := range queue` terminates iff the channel is closed and
    -- its buffer is drained; only then does the worker run the cleanup
    -- `delete(userQueues, chatID)` and exit.
    if (r id).present ∧ ¬(r id).busy ∧ (r id).pending = [] ∧ (r id).closed then
      some (r.set id ConvState.init)
    else none

/-- Run a trace of events from a state; `none` if any step is impossible. -/
def run (r : Registry) : List Ev → Option Registry
  | [] => some r
  | e :: tr => match step r e with
    | some r' => run r' tr
    | none => none

/-- A trace is a possible behaviour of the system from the initial
registry. -/
def Reachable (tr : List Ev) : Prop := (run Registry.init tr).isSome

instance (tr : List Ev) : Decidable (Reachable tr) := by
  unfold Reachable; infer_instance

/-- The messages accepted into conversation `id`'s queue, in trace order. -/
def acceptedMsgs (id : Int) : List Ev → List String
  | [] => []
  | e :: tr =>
    match e with
    | .arrive id' m true =>
      if id' = id then m :: acceptedMsgs id tr else acceptedMsgs id tr
    | _ => acceptedMsgs id tr

/-- The messages conversation `id`'s worker handed to `sendChat`, in
trace order. -/
def handedMsgs (id : Int) : List Ev → List String
  | [] => []
  | e :: tr =>
    match e with
    | .recv id' m =>
      if id' = id then m :: handedMsgs id tr else handedMsgs id tr
    | _ => handedMsgs id tr

/-- Number of `recv` events for `id` (completion requests started). -/
def recvCount (id : Int) : List Ev → Nat
  | [] => 0
  | e :: tr =>
    match e with
    | .recv id' _ => (if id' = id then 1 else 0) + recvCount id tr
    | _ => recvCount id tr

/-- Number of `finish` events for `id` (completion requests completed). -/
def finishCount (id : Int) : List Ev → Nat
  | [] => 0
  | e :: tr =>
    match e with
    | .finish id' => (if id' = id then 1 else 0) + finishCount id tr
    | _ => finishCount id tr

/-! ## Helper lemmas about exchange-pair histories -/

theorem pairsFlatten_cons (p : String × String) (t : List (String × String)) :
    pairsFlatten (p :: t) =
      ⟨"user", p.1⟩ :: ⟨"assistant", p.2⟩ :: pairsFlatten t := by
  simp [pairsFlatten]

theorem pairsFlatten_append (ps qs : List (String × String)) :
    pairsFlatten (ps ++ qs) = pairsFlatten ps ++ pairsFlatten qs := by
  simp [pairsFlatten]

theorem pairsFlatten_length (ps : List (String × String)) :
    (pairsFlatten ps).length = 2 * ps.length := by
  induction ps with
  | nil => rfl
  | cons p t ih => rw [pairsFlatten_cons]; simp [ih]; omega

theorem pairsFlatten_drop (ps : List (String × String)) (k : Nat) :
    (pairsFlatten ps).drop (2 * k) = pairsFlatten (ps.drop k) := by
  induction ps generalizing k with
  | nil => simp [pairsFlatten]
  | cons p t ih =>
    cases k with
    | zero => simp
    | succ k' =>
      rw [pairsFlatten_cons]
      have h2 : 2 * (k' + 1) = 2 * k' + 1 + 1 := by ring
      rw [h2, List.drop_succ_cons, List.drop_succ_cons, ih]
      rfl

theorem pairsFlatten_head (q : String × String) (t : List (String × String)) :
    (pairsFlatten (q :: t)).head?.map ChatMessage.role = some "user" := by
  rw [pairsFlatten_cons]; rfl

/-- C2.  After every completion that appends turns (`saved = true`) the
history has length at most 40; the trim keeps a suffix (discards from
the oldest end); and on a history built purely from (user, assistant)
pairs, the trimmed result is again a list of whole pairs whose first
retained message has role "user". -/
theorem sendChat_history_trim :
    (∀ (s : UserState) (m : String) (up : HttpResult),
        (sendChat s m up).saved = true →
        (sendChat s m up).state.history.length ≤ 40) ∧
    (∀ (h : List ChatMessage) (u a : String),
        (appendExchange h u a).length ≤ 40 ∧
        appendExchange h u a <:+ h ++ [⟨"user", u⟩, ⟨"assistant", a⟩]) ∧
    (∀ (ps : List (String × String)) (u a : String),
        ∃ qs, appendExchange (pairsFlatten ps) u a = pairsFlatten qs ∧
          (appendExchange (pairsFlatten ps) u a).head?.map ChatMessage.role =
            some "user") := by
  have hlen : ∀ (h : List ChatMessage) (u a : String),
      (appendExchange h u a).length ≤ 40 := by
    intro h u a
    simp only [appendExchange, trimHistory]
    split
    · rw [List.length_drop]
      omega
    · omega
  refine ⟨?_, ?_, ?_⟩
  · intro s m up hs
    cases up with
    | transportError => simp [sendChat] at hs
    | response status body =>
      by_cases hst : status < 200 ∨ 300 ≤ status
      · simp [sendChat, hst] at hs
      · cases body with
        | json choices =>
          cases choices with
          | nil => simp [sendChat, hst, decodeChatResponse] at hs
          | cons c rest =>
            simp [sendChat, hst, decodeChatResponse]
            exact hlen _ _ _
        | sse f t => simp [sendChat, hst, decodeChatResponse] at hs
        | garbage => simp [sendChat, hst, decodeChatResponse] at hs
  · intro h u a
    refine ⟨hlen h u a, ?_⟩
    simp only [appendExchange, trimHistory]
    split
    · exact List.drop_suffix _ _
    · exact List.suffix_rfl
  · intro ps u a
    have hrw : appendExchange (pairsFlatten ps) u a =
        trimHistory (pairsFlatten (ps ++ [(u, a)])) := by
      rw [pairsFlatten_append, appendExchange]
      rfl
    rw [hrw]
    simp only [trimHistory, pairsFlatten_length]
    split
    · rename_i hgt
      have hk : 2 * (ps ++ [(u, a)]).length - 40 =
          2 * ((ps ++ [(u, a)]).length - 20) := by omega
      rw [hk, pairsFlatten_drop]
      refine ⟨(ps ++ [(u, a)]).drop ((ps ++ [(u, a)]).length - 20), rfl, ?_⟩
      have hne : (ps ++ [(u, a)]).drop ((ps ++ [(u, a)]).length - 20) ≠ [] := by
        intro hnil
        have := congrArg List.length hnil
        simp at this
        omega
      obtain ⟨q, t, hqt⟩ := List.exists_cons_of_ne_nil hne
      rw [hqt]
      exact pairsFlatten_head q t
    · refine ⟨ps ++ [(u, a)], rfl, ?_⟩
      have hne : ps ++ [(u, a)] ≠ [] := by simp
      obtain ⟨q, t, hqt⟩ := List.exists_cons_of_ne_nil hne
      rw [hqt]
      exact pairsFlatten_head q t

/-- C2 witness: the length bound of the first conjunct at a concrete
successful call. -/
theorem sendChat_history_trim_witness :
    (sendChat (defaultState "m") "hi" (.response 200 (.json ["ok"]))).state.history.length ≤ 40 :=
  sendChat_history_trim.1 (defaultState "m") "hi" (.response 200 (.json ["ok"])) rfl

/-- C4.  Every failing upstream exchange (transport error, non-2xx
status, undecodable body) makes `sendChat` return an error, leave the
state untouched and skip the save; conversely any call that changed the
history returned a successful reply and saved. -/
theorem sendChat_failure_leaves_history :
    ∀ (s : UserState) (m : String) (up : HttpResult),
      (upstreamFails up = true →
        (∃ e, (sendChat s m up).reply = .error e) ∧
        (sendChat s m up).state = s ∧ (sendChat s m up).saved = false) ∧
      ((sendChat s m up).state.history ≠ s.history →
        (∃ r, (sendChat s m up).reply = .ok r) ∧
          (sendChat s m up).saved = true) := by
  intro s m up
  cases up with
  | transportError =>
    refine ⟨fun _ => ⟨⟨"transport", rfl⟩, rfl, rfl⟩, fun hne => absurd rfl hne⟩
  | response status body =>
    by_cases hst : status < 200 ∨ 300 ≤ status
    · constructor
      · intro _
        refine ⟨⟨"API request failed with status " ++ toString status, ?_⟩, ?_, ?_⟩ <;>
          simp [sendChat, hst]
      · intro hne
        simp [sendChat, hst] at hne
    · cases body with
      | json choices =>
        cases choices with
        | nil =>
          constructor
          · intro hf
            simp [upstreamFails, hst, decodeChatResponse] at hf
          · intro hne
            simp [sendChat, hst, decodeChatResponse] at hne
        | cons c rest =>
          constructor
          · intro hf
            simp [upstreamFails, hst, decodeChatResponse] at hf
          · intro _
            exact ⟨⟨c, by simp [sendChat, hst, decodeChatResponse]⟩,
              by simp [sendChat, hst, decodeChatResponse]⟩
      | sse f t =>
        constructor
        · intro _
          refine ⟨⟨"failed to parse response", ?_⟩, ?_, ?_⟩ <;>
            simp [sendChat, hst, decodeChatResponse]
        · intro hne
          simp [sendChat, hst, decodeChatResponse] at hne
      | garbage =>
        constructor
        · intro _
          refine ⟨⟨"failed to parse response", ?_⟩, ?_, ?_⟩ <;>
            simp [sendChat, hst, decodeChatResponse]
        · intro hne
          simp [sendChat, hst, decodeChatResponse] at hne

/-- C4 witness: a concrete 500-status failure leaves the state alone. -/
theorem sendChat_failure_leaves_history_witness :
    (∃ e, (sendChat (defaultState "m") "hi" (.response 500 .garbage)).reply = .error e) ∧
    (sendChat (defaultState "m") "hi" (.response 500 .garbage)).state = defaultState "m" ∧
    (sendChat (defaultState "m") "hi" (.response 500 .garbage)).saved = false :=
  (sendChat_failure_leaves_history (defaultState "m") "hi"
    (.response 500 .garbage)).1 rfl

/-- C7 counterexample: a 200 response whose body is an event stream with
a salvageable content fragment ("hello", properly terminated) still
makes `sendChat` fail with the decode error — there is no fallback that
would salvage it into a reply. -/
theorem sendChat_stream_body_errors :
    sendChat (defaultState "m") "hi" (.response 200 (.sse ["hello"] true)) =
      ⟨.error "failed to parse response", defaultState "m", false⟩ := rfl

/-- C7 amended: when decoding the non-streaming JSON reply fails (as it
does for every event-stream body), `sendChat` returns the decode error
immediately and unchanged state; no line-by-line event-stream fallback
parsing exists. -/
theorem sendChat_no_stream_fallback :
    ∀ (s : UserState) (m : String) (status : Nat)
      (frags : List String) (term : Bool),
      ¬(status < 200 ∨ 300 ≤ status) →
      sendChat s m (.response status (.sse frags term)) =
        ⟨.error "failed to parse response", s, false⟩ := by
  intro s m status frags term hst
  simp [sendChat, hst, decodeChatResponse]

/-- C7 amended witness. -/
theorem sendChat_no_stream_fallback_witness :
    sendChat (defaultState "m") "hi" (.response 204 (.sse ["a", "b"] false)) =
      ⟨.error "failed to parse response", defaultState "m", false⟩ :=
  sendChat_no_stream_fallback (defaultState "m") "hi" 204 ["a", "b"] false
    (by decide)

/-- C6.  `load` after `save` returns the saved state up to preset
seeding: all fields except `presets` agree, the loaded presets are
non-empty, and if the saved presets were already non-empty the loaded
state is exactly the saved one (seeding is idempotent, preset "1" is not
overwritten).  `load` is total, and missing and corrupt records both give
the seeded fresh default. -/
theorem loadUserState_roundtrip :
    ∀ (st : Store) (id : Int) (s : UserState) (dm : String),
      ((loadUserState dm (saveUserState st id s id)).model = s.model ∧
       (loadUserState dm (saveUserState st id s id)).systemPrompt = s.systemPrompt ∧
       (loadUserState dm (saveUserState st id s id)).history = s.history ∧
       (loadUserState dm (saveUserState st id s id)).pendingInput = s.pendingInput ∧
       (loadUserState dm (saveUserState st id s id)).presets ≠ []) ∧
      (s.presets ≠ [] → loadUserState dm (saveUserState st id s id) = s) ∧
      loadUserState dm .missing = seedPresetOne (defaultState dm) ∧
      loadUserState dm .corrupt = seedPresetOne (defaultState dm) := by
  intro st id s dm
  have hsave : saveUserState st id s id = .valid s := by
    simp [saveUserState]
  refine ⟨?_, ?_, rfl, rfl⟩
  · rw [hsave]
    by_cases hp : s.presets = []
    · simp [loadUserState, hp, seedPresetOne, presetsInsert]
    · have hlen : (s.presets.length == 0) = false := by
        simp [List.length_eq_zero]
        exact hp
      simp [loadUserState, hlen, hp]
  · intro hp
    rw [hsave]
    have hlen : (s.presets.length == 0) = false := by
      simp [List.length_eq_zero]
      exact hp
    simp [loadUserState, hlen]

/-- C6 witness: a concrete round trip of a state that already has a
preset, showing it is returned verbatim. -/
theorem loadUserState_roundtrip_witness :
    loadUserState "dm" (saveUserState (fun _ => .missing) 7
        { model := "m2", systemPrompt := "sp", history := [],
          presets := [("1", ⟨"m2", "sp"⟩)], pendingInput := "" } 7) =
      { model := "m2", systemPrompt := "sp", history := [],
        presets := [("1", ⟨"m2", "sp"⟩)], pendingInput := "" } :=
  (loadUserState_roundtrip (fun _ => .missing) 7
    { model := "m2", systemPrompt := "sp", history := [],
      presets := [("1", ⟨"m2", "sp"⟩)], pendingInput := "" } "dm").2.1
    (by simp)

/-- C10.  With no allow-list configured (absent, not a list, or empty)
every user id is allowed; with a non-empty list a user is allowed
exactly when some list item (int64, int, or float64-truncation) equals
the id. -/
theorem isAllowed_spec :
    ∀ (cfg : AllowedConfig) (uid : Int),
      isAllowed cfg uid = true ↔
        (cfg = .absent ∨ cfg = .notAList ∨ cfg = .list [] ∨
         ∃ items item, cfg = .list items ∧ item ∈ items ∧
           itemMatches uid item = true) := by
  intro cfg uid
  cases cfg with
  | absent => simp [isAllowed]
  | notAList => simp [isAllowed]
  | list items =>
    cases items with
    | nil => simp [isAllowed]
    | cons x t =>
      constructor
      · intro h
        have hany : (x :: t).any (itemMatches uid) = true := by
          simpa [isAllowed] using h
        obtain ⟨item, hmem, hmatch⟩ := List.any_eq_true.mp hany
        exact .inr (.inr (.inr ⟨x :: t, item, rfl, hmem, hmatch⟩))
      · intro h
        rcases h with h | h | h | ⟨items', item, heq, hmem, hmatch⟩
        · simp at h
        · simp at h
        · simp at h
        · injection heq with heq'
          subst heq'
          have hany : (x :: t).any (itemMatches uid) = true :=
            List.any_eq_true.mpr ⟨item, hmem, hmatch⟩
          simpa [isAllowed] using hany

/-! ## Trace invariants of the dispatch-queue system -/

/-- The conversation id an event addresses. -/
def evId : Ev → Int
  | .arrive id _ _ => id
  | .recv id _ => id
  | .finish id => id
  | .exitW id => id

theorem Registry.set_eq (r : Registry) (id : Int) (c : ConvState) :
    r.set id c id = c := by
  simp [Registry.set]

theorem Registry.set_ne (r : Registry) (id j : Int) (c : ConvState)
    (h : j ≠ id) : r.set id c j = r j := by
  simp [Registry.set, h]

theorem Registry.set_self (r : Registry) (id : Int) : r.set id (r id) = r := by
  funext j
  by_cases h : j = id
  · subst h; simp [Registry.set]
  · simp [Registry.set, h]

theorem onTextEnqueue_fst (r : Registry) (id : Int) (m : String) :
    (onTextEnqueue r id m).1 =
      r.set id { effConv (r id) with
        pending := if (effConv (r id)).pending.length < 10
          then (effConv (r id)).pending ++ [m]
          else (effConv (r id)).pending } := by
  unfold onTextEnqueue
  split
  · rfl
  · rfl

theorem onTextEnqueue_snd (r : Registry) (id : Int) (m : String) :
    (onTextEnqueue r id m).2 =
      if (effConv (r id)).pending.length < 10 then none
      else some "Please wait, your previous request is still processing." := by
  unfold onTextEnqueue
  split
  · rfl
  · rfl

theorem step_shape (r r' : Registry) (e : Ev) (h : step r e = some r') :
    ∃ c, r' = r.set (evId e) c := by
  cases e with
  | arrive id m acc =>
    simp only [step] at h
    split at h
    · cases h
      rw [onTextEnqueue_fst]
      exact ⟨_, rfl⟩
    · cases h
  | recv id m =>
    simp only [step] at h
    split at h
    · exact ⟨_, (Option.some_injective _ h).symm⟩
    · cases h
  | finish id =>
    simp only [step] at h
    split at h
    · exact ⟨_, (Option.some_injective _ h).symm⟩
    · cases h
  | exitW id =>
    simp only [step] at h
    split at h
    · exact ⟨_, (Option.some_injective _ h).symm⟩
    · cases h

theorem step_other (r r' : Registry) (e : Ev) (h : step r e = some r')
    (j : Int) (hj : j ≠ evId e) : r' j = r j := by
  obtain ⟨c, hc⟩ := step_shape r r' e h
  rw [hc, Registry.set_ne _ _ _ _ hj]

/-- States in which an absent queue entry carries no buffered messages
and no busy worker (true of every reachable state). -/
def WF (r : Registry) : Prop :=
  ∀ id, (r id).present = false → (r id).pending = [] ∧ (r id).busy = false

theorem WF_init : WF Registry.init := by
  intro id _
  exact ⟨rfl, rfl⟩

theorem effConv_pending (c : ConvState) (hwf : c.present = false → c.pending = []) :
    (effConv c).pending = c.pending := by
  unfold effConv
  split
  · rfl
  · rename_i hp
    simp only [Bool.not_eq_true] at hp
    rw [hwf hp]

theorem effConv_busy (c : ConvState) (hwf : c.present = false → c.busy = false) :
    (effConv c).busy = c.busy := by
  unfold effConv
  split
  · rfl
  · rename_i hp
    simp only [Bool.not_eq_true] at hp
    rw [hwf hp]

theorem effConv_closed (c : ConvState) (hc : c.closed = false) :
    (effConv c).closed = false := by
  unfold effConv
  split
  · exact hc
  · rfl

theorem effConv_present (c : ConvState) : (effConv c).present = true := by
  unfold effConv
  split
  · assumption
  · rfl

theorem step_WF (r r' : Registry) (e : Ev) (hwf : WF r)
    (h : step r e = some r') : WF r' := by
  intro j hj
  by_cases hje : j = evId e
  · subst hje
    cases e with
    | arrive id m acc =>
      simp only [step] at h
      split at h
      · cases h
        simp only [evId] at hj
        simp only [onTextEnqueue_fst, Registry.set_eq] at hj
        rw [effConv_present] at hj
        cases hj
      · cases h
    | recv id m =>
      simp only [step] at h
      split at h
      · rename_i hg
        cases h
        simp only [evId, Registry.set_eq] at hj
        rw [show ({ r id with pending := (r id).pending.tail, busy := true } :
            ConvState).present = (r id).present from rfl] at hj
        exact absurd hj (by simp [hg.1])
      · cases h
    | finish id =>
      simp only [step] at h
      split at h
      · rename_i hg
        cases h
        simp only [evId, Registry.set_eq] at hj
        rw [show ({ r id with busy := false } : ConvState).present =
            (r id).present from rfl] at hj
        exact absurd hj (by simp [hg.1])
      · cases h
    | exitW id =>
      simp only [step] at h
      split at h
      · cases h
        simp only [evId, Registry.set_eq]
        exact ⟨rfl, rfl⟩
      · cases h
  · rw [step_other r r' e h j hje] at hj ⊢
    exact hwf j hj

/-- Channels are never closed: no source statement closes a queue
channel, so `closed` is false in every reachable state. -/
theorem run_closed_false (tr : List Ev) :
    ∀ (r r' : Registry), (∀ id, (r id).closed = false) →
      run r tr = some r' → ∀ id, (r' id).closed = false := by
  induction tr with
  | nil =>
    intro r r' hc h id
    simp only [run] at h
    cases h
    exact hc id
  | cons e tr ih =>
    intro r r' hc h id
    simp only [run] at h
    cases hstep : step r e with
    | none => rw [hstep] at h; cases h
    | some r1 =>
      rw [hstep] at h
      refine ih r1 r' ?_ h id
      intro j
      by_cases hje : j = evId e
      · subst hje
        cases e with
        | arrive id' m acc =>
          simp only [step] at hstep
          split at hstep
          · cases hstep
            simp only [evId, onTextEnqueue_fst, Registry.set_eq]
            exact effConv_closed _ (hc _)
          · cases hstep
        | recv id' m =>
          simp only [step] at hstep
          split at hstep
          · cases hstep
            simp only [evId, Registry.set_eq]
            exact hc id'
          · cases hstep
        | finish id' =>
          simp only [step] at hstep
          split at hstep
          · cases hstep
            simp only [evId, Registry.set_eq]
            exact hc id'
          · cases hstep
        | exitW id' =>
          simp only [step] at hstep
          split at hstep
          · cases hstep
            simp only [evId, Registry.set_eq]
            rfl
          · cases hstep
      · rw [step_other r r1 e hstep j hje]
        exact hc j

/-- The FIFO ledger: along any run, the messages a conversation's worker
has dequeued, followed by what is still buffered, equal the initially
buffered messages followed by everything accepted during the run. -/
theorem run_pending_eq (tr : List Ev) :
    ∀ (r r' : Registry), WF r → run r tr = some r' → ∀ id,
      (r id).pending ++ acceptedMsgs id tr =
        handedMsgs id tr ++ (r' id).pending := by
  induction tr with
  | nil =>
    intro r r' _ h id
    simp only [run] at h
    cases h
    simp [acceptedMsgs, handedMsgs]
  | cons e tr ih =>
    intro r r' hwf h id
    simp only [run] at h
    cases hstep : step r e with
    | none => rw [hstep] at h; cases h
    | some r1 =>
      rw [hstep] at h
      have hwf1 := step_WF r r1 e hwf hstep
      have ih' := ih r1 r' hwf1 h id
      by_cases hje : id = evId e
      · subst hje
        cases e with
        | arrive id' m acc =>
          simp only [evId] at ih' ⊢
          simp only [step] at hstep
          split at hstep
          · rename_i hacc
            cases hstep
            rw [onTextEnqueue_snd] at hacc
            simp only [onTextEnqueue_fst, Registry.set_eq] at ih'
            have hpe := effConv_pending (r id') (fun hp => (hwf id' hp).1)
            by_cases hroom : (effConv (r id')).pending.length < 10
            · -- accepted: buffer had room
              have haccT : acc = true := by
                rw [if_pos hroom] at hacc
                simpa using hacc
              subst haccT
              rw [if_pos hroom, hpe] at ih'
              rw [List.append_assoc, List.singleton_append] at ih'
              simpa [acceptedMsgs, handedMsgs] using ih'
            · -- rejected: buffer full
              have haccF : acc = false := by
                rw [if_neg hroom] at hacc
                simpa using hacc
              subst haccF
              rw [if_neg hroom, hpe] at ih'
              simpa [acceptedMsgs, handedMsgs] using ih'
          · cases hstep
        | recv id' m =>
          simp only [evId] at ih' ⊢
          simp only [step] at hstep
          split at hstep
          · rename_i hg
            cases hstep
            simp only [Registry.set_eq] at ih'
            have hhd : (r id').pending = m :: (r id').pending.tail := by
              have h2 := hg.2.2
              cases hp : (r id').pending with
              | nil => rw [hp] at h2; cases h2
              | cons a t =>
                rw [hp] at h2
                simp only [List.head?_cons, Option.some.injEq] at h2
                rw [h2]
                rfl
            simp only [acceptedMsgs, handedMsgs, if_pos rfl]
            rw [hhd]
            simp only [List.cons_append]
            exact congrArg (m :: ·) ih'
          · cases hstep
        | finish id' =>
          simp only [evId] at ih' ⊢
          simp only [step] at hstep
          split at hstep
          · cases hstep
            rw [Registry.set_eq] at ih'
            simpa [acceptedMsgs, handedMsgs] using ih'
          · cases hstep
        | exitW id' =>
          simp only [evId] at ih' ⊢
          simp only [step] at hstep
          split at hstep
          · rename_i hg
            cases hstep
            rw [Registry.set_eq] at ih'
            rw [hg.2.2.1]
            simpa [acceptedMsgs, handedMsgs, ConvState.init] using ih'
          · cases hstep
      · have hr1 : r1 id = r id := step_other r r1 e hstep id hje
        rw [hr1] at ih'
        cases e with
        | arrive id' m acc =>
          simp only [evId] at hje
          cases acc with
          | true => simpa [acceptedMsgs, handedMsgs, Ne.symm hje] using ih'
          | false => simpa [acceptedMsgs, handedMsgs, Ne.symm hje] using ih'
        | recv id' m =>
          simp only [evId] at hje
          simpa [acceptedMsgs, handedMsgs, Ne.symm hje] using ih'
        | finish id' =>
          simpa [acceptedMsgs, handedMsgs] using ih'
        | exitW id' =>
          simpa [acceptedMsgs, handedMsgs] using ih'

def busyNat (b : Bool) : Nat := if b then 1 else 0

theorem busyNat_true : busyNat true = 1 := rfl

theorem busyNat_false : busyNat false = 0 := rfl

/-- Completion-call accounting: finished calls plus a possible in-flight
one equal started calls, relative to the starting state. -/
theorem run_busy_count (tr : List Ev) :
    ∀ (r r' : Registry), WF r → run r tr = some r' → ∀ id,
      finishCount id tr + busyNat ((r' id).busy) =
        recvCount id tr + busyNat ((r id).busy) := by
  induction tr with
  | nil =>
    intro r r' _ h id
    simp only [run] at h
    cases h
    simp [finishCount, recvCount]
  | cons e tr ih =>
    intro r r' hwf h id
    simp only [run] at h
    cases hstep : step r e with
    | none => rw [hstep] at h; cases h
    | some r1 =>
      rw [hstep] at h
      have hwf1 := step_WF r r1 e hwf hstep
      have ih' := ih r1 r' hwf1 h id
      by_cases hje : id = evId e
      · subst hje
        cases e with
        | arrive id' m acc =>
          simp only [evId] at ih' ⊢
          simp only [step] at hstep
          split at hstep
          · cases hstep
            simp only [onTextEnqueue_fst, Registry.set_eq] at ih'
            have hbe := effConv_busy (r id') (fun hp => (hwf id' hp).2)
            rw [hbe] at ih'
            simpa [finishCount, recvCount] using ih'
          · cases hstep
        | recv id' m =>
          simp only [evId] at ih' ⊢
          simp only [step] at hstep
          split at hstep
          · rename_i hg
            cases hstep
            simp only [Registry.set_eq] at ih'
            simp [busyNat_true] at ih'
            have hb : (r id').busy = false := by
              have := hg.2.1
              simpa using this
            simp [finishCount, recvCount, hb, busyNat_false]
            omega
          · cases hstep
        | finish id' =>
          simp only [evId] at ih' ⊢
          simp only [step] at hstep
          split at hstep
          · rename_i hg
            cases hstep
            simp only [Registry.set_eq] at ih'
            simp [busyNat_false] at ih'
            have hb : (r id').busy = true := hg.2
            simp [finishCount, recvCount, hb, busyNat_true]
            omega
          · cases hstep
        | exitW id' =>
          simp only [evId] at ih' ⊢
          simp only [step] at hstep
          split at hstep
          · rename_i hg
            cases hstep
            simp only [Registry.set_eq] at ih'
            have hb : (r id').busy = false := by
              have := hg.2.1
              simpa using this
            simp only [finishCount, recvCount, hb]
            simpa [ConvState.init] using ih'
          · cases hstep
      · have hr1 : r1 id = r id := step_other r r1 e hstep id hje
        rw [hr1] at ih'
        cases e with
        | arrive id' m acc =>
          simpa [finishCount, recvCount] using ih'
        | recv id' m =>
          simp only [evId] at hje
          simpa [finishCount, recvCount, Ne.symm hje] using ih'
        | finish id' =>
          simp only [evId] at hje
          simpa [finishCount, recvCount, Ne.symm hje] using ih'
        | exitW id' =>
          simpa [finishCount, recvCount] using ih'

theorem run_append (p q : List Ev) :
    ∀ r : Registry, run r (p ++ q) =
      (run r p).bind (fun r1 => run r1 q) := by
  induction p with
  | nil => intro r; rfl
  | cons e p ih =>
    intro r
    simp only [List.cons_append, run]
    cases step r e with
    | none => rfl
    | some r1 => exact ih r1

/-- Two reachable traces with the same per-conversation behaviour but
opposite completion interleavings across two distinct conversations. -/
def demoTraceA : List Ev :=
  [.arrive 1 "a1" true, .arrive 2 "b1" true,
   .recv 1 "a1", .finish 1, .recv 2 "b1", .finish 2]

def demoTraceB : List Ev :=
  [.arrive 1 "a1" true, .arrive 2 "b1" true,
   .recv 2 "b1", .finish 2, .recv 1 "a1", .finish 1]

/-- C1.  Along every reachable trace, each conversation's worker hands
messages to `sendChat` in exactly the accepted enqueue order (the handed
sequence is a prefix of the accepted sequence); at most one completion
call is outstanding per conversation at any time (in every reachable
trace — and hence every prefix of one, by the second conjunct — the
started calls exceed the finished ones by at most one); and no ordering
is guaranteed across distinct conversations (two reachable traces
complete the same two conversations' messages in opposite orders). -/
theorem queue_fifo_serialized :
    (∀ tr : List Ev, Reachable tr → ∀ id : Int,
        handedMsgs id tr <+: acceptedMsgs id tr ∧
        finishCount id tr ≤ recvCount id tr ∧
        recvCount id tr ≤ finishCount id tr + 1) ∧
    (∀ p q : List Ev, Reachable (p ++ q) → Reachable p) ∧
    (Reachable demoTraceA ∧ Reachable demoTraceB) := by
  refine ⟨?_, ?_, by decide, by decide⟩
  · intro tr hreach id
    obtain ⟨r', hr'⟩ := Option.isSome_iff_exists.mp hreach
    have hpend := run_pending_eq tr Registry.init r' WF_init hr' id
    have hcount := run_busy_count tr Registry.init r' WF_init hr' id
    constructor
    · refine ⟨(r' id).pending, ?_⟩
      simpa [Registry.init, ConvState.init] using hpend.symm
    · have h0 : busyNat ((Registry.init id).busy) = 0 := rfl
      rw [h0] at hcount
      cases hb : (r' id).busy with
      | false => rw [hb, busyNat_false] at hcount; omega
      | true => rw [hb, busyNat_true] at hcount; omega
  · intro p q hreach
    unfold Reachable at hreach ⊢
    rw [run_append] at hreach
    cases hp : run Registry.init p with
    | none => rw [hp] at hreach; cases hreach
    | some r1 => simp

/-- C1 witness: the FIFO and serialization bounds at a concrete
reachable trace. -/
theorem queue_fifo_serialized_witness :
    handedMsgs 1 demoTraceA <+: acceptedMsgs 1 demoTraceA ∧
    finishCount 1 demoTraceA ≤ recvCount 1 demoTraceA ∧
    recvCount 1 demoTraceA ≤ finishCount 1 demoTraceA + 1 :=
  queue_fifo_serialized.1 demoTraceA (by decide) 1

/-- C3.  The queue has fixed capacity 10: an enqueue to a conversation
with 10 pending messages is rejected, the registry (hence that queue) is
left exactly as it was, and the "please wait" reply is produced; an
enqueue to a different conversation whose queue is not full is accepted,
appends the message to that queue, and touches no other conversation. -/
theorem enqueue_bounded_nonblocking :
    ∀ (r : Registry) (idA idB : Int) (mA mB : String),
      ((r idA).present = true → (r idA).pending.length = 10 →
        onTextEnqueue r idA mA =
          (r, some "Please wait, your previous request is still processing.")) ∧
      (idB ≠ idA → (r idB).present = true → (r idB).pending.length < 10 →
        (onTextEnqueue r idB mB).2 = none ∧
        (onTextEnqueue r idB mB).1 idB =
          { r idB with pending := (r idB).pending ++ [mB] } ∧
        ∀ j, j ≠ idB → (onTextEnqueue r idB mB).1 j = r j) := by
  intro r idA idB mA mB
  constructor
  · intro hpres hfull
    have heff : effConv (r idA) = r idA := by
      simp [effConv, hpres]
    unfold onTextEnqueue
    rw [heff, hfull]
    simp [Registry.set_self]
  · intro _ hpres hroom
    have heff : effConv (r idB) = r idB := by
      simp [effConv, hpres]
    refine ⟨?_, ?_, ?_⟩
    · rw [onTextEnqueue_snd, heff, if_pos hroom]
    · rw [onTextEnqueue_fst, heff, if_pos hroom, Registry.set_eq]
    · intro j hj
      rw [onTextEnqueue_fst]
      exact Registry.set_ne _ _ _ _ hj

/-- C3 witness: a concrete registry with a full queue for conversation 1
and a non-full queue for conversation 2. -/
theorem enqueue_bounded_nonblocking_witness :
    onTextEnqueue
        ((Registry.init.set 1 ⟨true, List.replicate 10 "x", false, false⟩).set 2
          ⟨true, ["y"], false, false⟩) 1 "new" =
      ((Registry.init.set 1 ⟨true, List.replicate 10 "x", false, false⟩).set 2
          ⟨true, ["y"], false, false⟩,
        some "Please wait, your previous request is still processing.") :=
  (enqueue_bounded_nonblocking
    ((Registry.init.set 1 ⟨true, List.replicate 10 "x", false, false⟩).set 2
      ⟨true, ["y"], false, false⟩) 1 2 "new" "other").1 (by decide) (by decide)

/-- C9 (divergence witness for the drain-loop claim): in every reachable
state every channel is still open, so the worker-exit transition — the
only place the `delete(userQueues, chatID)` cleanup runs — is never
enabled: the drain loop never terminates on an empty queue and the
registry entry is never removed. -/
theorem worker_never_exits :
    ∀ (tr : List Ev) (r' : Registry), run Registry.init tr = some r' →
      ∀ id : Int, (r' id).closed = false ∧ step r' (.exitW id) = none := by
  intro tr r' hr id
  have hc := run_closed_false tr Registry.init r' (fun _ => rfl) hr id
  refine ⟨hc, ?_⟩
  simp [step, hc]

/-- C9 witness: after one accepted message, the exit transition for that
conversation is disabled. -/
theorem worker_never_exits_witness :
    ((Registry.init.set 0 ⟨true, ["m"], false, false⟩) 0).closed = false ∧
    step (Registry.init.set 0 ⟨true, ["m"], false, false⟩) (.exitW 0) = none :=
  worker_never_exits [.arrive 0 "m" true]
    (Registry.init.set 0 ⟨true, ["m"], false, false⟩) rfl 0


/-! ## Renderer tier 3: `splitAndSend` (part_002 lines 644-697)

Text is modelled as `List Char`; Go's `len` (bytes) is the list length
(exact for single-byte text, the unit the spec's ceiling counts).
The function is embedded as the ordered list of chunks passed to
`c.Send`, assuming each delivery succeeds. -/

/-- Prepend a character to the first piece of a split (helper for
`splitOnChar`). -/
def consHead (c : Char) : List (List Char) → List (List Char)
  | [] => [[c]]
  | l :: ls => (c :: l) :: ls

/-- Go `strings.Split(s, string(sep))` for a one-character separator. -/
def splitOnChar (sep : Char) : List Char → List (List Char)
  | [] => [[]]
  | c :: t =>
    if c = sep then [] :: splitOnChar sep t
    else consHead c (splitOnChar sep t)

/-- Body of the inner word loop for an over-long line:
```go
if len(chunk)+len(word)+1 > maxLen { send(chunk); chunk = "" }
chunk += word + " "
``` -/
def splitWordsStep (st : List (List Char) × List Char) (w : List Char) :
    List (List Char) × List Char :=
  if 4000 < st.2.length + w.length + 1 then
    (st.1 ++ [st.2], w ++ [' '])
  else
    (st.1, st.2 ++ w ++ [' '])

/-- Body of the line loop of `splitAndSend`: empty lines append a bare
newline to the chunk; an over-4000 line flushes a non-empty chunk and is
word-split; otherwise the line is accumulated, flushing first when it
would overflow. -/
def splitLineStep (st : List (List Char) × List Char) (line : List Char) :
    List (List Char) × List Char :=
  if line = [] then (st.1, st.2 ++ ['\n'])
  else if 4000 < line.length then
    (splitOnChar ' ' line).foldl splitWordsStep
      (if st.2 = [] then st else (st.1 ++ [st.2], []))
  else if 4000 < st.2.length + line.length + 1 then
    (st.1 ++ [st.2], line)
  else
    (st.1, st.2 ++ line ++ ['\n'])

/-- Go `splitAndSend` (`maxLen = 4000`): a text that already fits is one
chunk; otherwise fold the line loop over the lines and emit the final
non-empty chunk. -/
def splitAndSend (text : List Char) : List (List Char) :=
  if text.length ≤ 4000 then [text]
  else
    if ((splitOnChar '\n' text).foldl splitLineStep ([], [])).2 = [] then
      ((splitOnChar '\n' text).foldl splitLineStep ([], [])).1
    else
      ((splitOnChar '\n' text).foldl splitLineStep ([], [])).1 ++
        [((splitOnChar '\n' text).foldl splitLineStep ([], [])).2]

theorem splitWordsStep_eq (out : List (List Char)) (ch w : List Char) :
    splitWordsStep (out, ch) w =
      if 4000 < ch.length + w.length + 1 then (out ++ [ch], w ++ [' '])
      else (out, ch ++ w ++ [' ']) := rfl

theorem splitLineStep_eq (out : List (List Char)) (ch line : List Char) :
    splitLineStep (out, ch) line =
      if line = [] then (out, ch ++ ['\n'])
      else if 4000 < line.length then
        (splitOnChar ' ' line).foldl splitWordsStep
          (if ch = [] then (out, ch) else (out ++ [ch], []))
      else if 4000 < ch.length + line.length + 1 then (out ++ [ch], line)
      else (out, ch ++ line ++ ['\n']) := rfl

theorem splitOnChar_ne_nil (sep : Char) (s : List Char) :
    splitOnChar sep s ≠ [] := by
  cases s with
  | nil => simp [splitOnChar]
  | cons c t =>
    simp only [splitOnChar]
    split
    · simp
    · unfold consHead
      cases splitOnChar sep t <;> simp

theorem splitOnChar_of_not_mem (sep : Char) (s : List Char) (h : sep ∉ s) :
    splitOnChar sep s = [s] := by
  induction s with
  | nil => rfl
  | cons c t ih =>
    have hc : c ≠ sep := fun hcs => h (hcs ▸ List.mem_cons_self c t)
    have ht : sep ∉ t := fun hm => h (List.mem_cons_of_mem c hm)
    rw [splitOnChar, if_neg hc, ih ht]
    rfl

theorem splitOnChar_append_cons (sep : Char) (xs rest : List Char)
    (h : sep ∉ xs) :
    splitOnChar sep (xs ++ sep :: rest) = xs :: splitOnChar sep rest := by
  induction xs with
  | nil => simp [splitOnChar]
  | cons c t ih =>
    have hc : c ≠ sep := fun hcs => h (hcs ▸ List.mem_cons_self c t)
    have ht : sep ∉ t := fun hm => h (List.mem_cons_of_mem c hm)
    rw [List.cons_append, splitOnChar, if_neg hc, ih ht]
    rfl

/-- The line-accumulation branch of the line loop, for a line that is
non-empty, fits the ceiling, and does not overflow the chunk. -/
theorem splitLineStep_accum (out : List (List Char)) (ch l : List Char)
    (h1 : l ≠ []) (h2 : ¬ 4000 < l.length)
    (h3 : ¬ 4000 < ch.length + l.length + 1) :
    splitLineStep (out, ch) l = (out, ch ++ l ++ ['\n']) := by
  rw [splitLineStep_eq, if_neg h1, if_neg h2, if_neg h3]

/-- The empty-line branch of the line loop: a bare newline is appended
to the chunk with no size check. -/
theorem splitLineStep_empty (out : List (List Char)) (ch : List Char) :
    splitLineStep (out, ch) [] = (out, ch ++ ['\n']) := by
  rw [splitLineStep_eq, if_pos rfl]

/-- C5 counterexample: 3999 characters followed by three empty lines are
split into a single chunk of 4003 characters — the empty-line branch
appends newlines to the chunk with no size check, so a chunk exceeds the
fixed 4000 ceiling the claim states for every chunk. -/
theorem splitAndSend_exceeds_ceiling :
    (splitAndSend (List.replicate 3999 'a' ++ ['\n', '\n', '\n'])).map
        List.length = [4003] := by
  have main : ∀ R : List Char, R.length = 3999 → '\n' ∉ R →
      (splitAndSend (R ++ ['\n', '\n', '\n'])).map List.length = [4003] := by
    intro R hlen hmem
    have hRne : R ≠ [] := by
      apply List.ne_nil_of_length_pos
      omega
    have hsplit : splitOnChar '\n' (R ++ ['\n', '\n', '\n'])
        = R :: [[], [], []] := by
      have h1 := splitOnChar_append_cons '\n' R ['\n', '\n'] hmem
      have h2 : splitOnChar '\n' ['\n', '\n'] = [[], [], []] := rfl
      rw [show (R ++ ['\n', '\n', '\n'] : List Char)
        = R ++ '\n' :: ['\n', '\n'] from rfl, h1, h2]
    have hst1 : splitLineStep ([], []) R = ([], [] ++ R ++ ['\n']) := by
      apply splitLineStep_accum _ _ _ hRne
      · omega
      · simp only [List.length_nil]
        omega
    have hbig : ¬ ((R ++ ['\n', '\n', '\n'] : List Char).length ≤ 4000) := by
      rw [List.length_append, hlen]
      norm_num
    have hchne : (((([] ++ R ++ ['\n']) ++ ['\n']) ++ ['\n']) ++ ['\n'] :
        List Char) ≠ [] := by
      apply List.ne_nil_of_length_pos
      simp only [List.length_append, List.length_nil, List.length_singleton,
        hlen]
      omega
    unfold splitAndSend
    rw [if_neg hbig, hsplit]
    simp only [List.foldl_cons, List.foldl_nil]
    rw [hst1, splitLineStep_empty, splitLineStep_empty, splitLineStep_empty,
      if_neg hchne]
    simp only [List.nil_append, List.map_cons, List.map_nil,
      List.length_append, List.length_singleton, hlen]
  exact main (List.replicate 3999 'a') (List.length_replicate _ _)
    (fun hm => absurd (List.eq_of_mem_replicate hm) (by decide))

/-- Bound invariant of the word loop: if every word fits in 3999 units,
every flushed chunk and the running chunk stay at or below 4000. -/
theorem foldWords_bound (ws : List (List Char)) :
    ∀ (out : List (List Char)) (ch : List Char),
      (∀ w ∈ ws, w.length ≤ 3999) →
      (∀ c ∈ out, c.length ≤ 4000) → ch.length ≤ 4000 →
      (∀ c ∈ (ws.foldl splitWordsStep (out, ch)).1, c.length ≤ 4000) ∧
      (ws.foldl splitWordsStep (out, ch)).2.length ≤ 4000 := by
  induction ws with
  | nil =>
    intro out ch _ hout hch
    exact ⟨hout, hch⟩
  | cons w ws ih =>
    intro out ch hws hout hch
    have hw : w.length ≤ 3999 := hws w (List.mem_cons_self w ws)
    have hws' : ∀ x ∈ ws, x.length ≤ 3999 :=
      fun x hx => hws x (List.mem_cons_of_mem w hx)
    rw [List.foldl_cons, splitWordsStep_eq]
    by_cases hc : 4000 < ch.length + w.length + 1
    · rw [if_pos hc]
      refine ih _ _ hws' ?_ ?_
      · intro c hcm
        rcases List.mem_append.mp hcm with hcm | hcm
        · exact hout c hcm
        · rw [List.mem_singleton.mp hcm]
          exact hch
      · simp only [List.length_append, List.length_singleton]
        omega
    · rw [if_neg hc]
      refine ih _ _ hws' hout ?_
      simp only [List.length_append, List.length_singleton]
      omega

/-- Content invariant of the word loop: flushed chunks and the running
chunk concatenate to what was there before plus each word with a
trailing space. -/
theorem foldWords_flatten (ws : List (List Char)) :
    ∀ (out : List (List Char)) (ch : List Char),
      ((ws.foldl splitWordsStep (out, ch)).1).flatten ++
          (ws.foldl splitWordsStep (out, ch)).2
        = out.flatten ++ ch ++ (ws.map (· ++ [' '])).flatten := by
  induction ws with
  | nil =>
    intro out ch
    simp
  | cons w ws ih =>
    intro out ch
    rw [List.foldl_cons, splitWordsStep_eq]
    by_cases hc : 4000 < ch.length + w.length + 1
    · rw [if_pos hc, ih]
      simp [List.append_assoc]
    · rw [if_neg hc, ih]
      simp [List.append_assoc]

/-- Bound invariant of the line loop, assuming no empty lines and only
3999-unit words inside over-long lines. -/
theorem foldLines_bound (lines : List (List Char)) :
    ∀ (out : List (List Char)) (ch : List Char),
      (∀ l ∈ lines, l ≠ [] ∧
        (4000 < l.length → ∀ w ∈ splitOnChar ' ' l, w.length ≤ 3999)) →
      (∀ c ∈ out, c.length ≤ 4000) → ch.length ≤ 4000 →
      (∀ c ∈ (lines.foldl splitLineStep (out, ch)).1, c.length ≤ 4000) ∧
      (lines.foldl splitLineStep (out, ch)).2.length ≤ 4000 := by
  induction lines with
  | nil =>
    intro out ch _ hout hch
    exact ⟨hout, hch⟩
  | cons l ls ih =>
    intro out ch hls hout hch
    have hl := hls l (List.mem_cons_self l ls)
    have hls' : ∀ x ∈ ls, x ≠ [] ∧
        (4000 < x.length → ∀ w ∈ splitOnChar ' ' x, w.length ≤ 3999) :=
      fun x hx => hls x (List.mem_cons_of_mem l hx)
    have hout1 : ∀ c ∈ out ++ [ch], c.length ≤ 4000 := by
      intro c hcm
      rcases List.mem_append.mp hcm with hcm | hcm
      · exact hout c hcm
      · rw [List.mem_singleton.mp hcm]
        exact hch
    rw [List.foldl_cons, splitLineStep_eq, if_neg hl.1]
    by_cases hlong : 4000 < l.length
    · rw [if_pos hlong]
      have hwords := hl.2 hlong
      by_cases hche : ch = []
      · rw [if_pos hche]
        have hw := foldWords_bound (splitOnChar ' ' l) out ch hwords hout hch
        exact ih _ _ hls' hw.1 hw.2
      · rw [if_neg hche]
        have hw := foldWords_bound (splitOnChar ' ' l) (out ++ [ch]) []
          hwords hout1 (by simp)
        exact ih _ _ hls' hw.1 hw.2
    · rw [if_neg hlong]
      by_cases hover : 4000 < ch.length + l.length + 1
      · rw [if_pos hover]
        exact ih _ _ hls' hout1 (by omega)
      · rw [if_neg hover]
        refine ih _ _ hls' hout ?_
        simp only [List.length_append, List.length_singleton]
        omega

/-- Splitting a line into words and re-joining each with a trailing
space reconstructs the line plus one trailing space. -/
theorem flatten_splitOnChar_words (sep : Char) (s : List Char) :
    ((splitOnChar sep s).map (· ++ [sep])).flatten = s ++ [sep] := by
  induction s with
  | nil => simp [splitOnChar]
  | cons c t ih =>
    by_cases hc : c = sep
    · subst hc
      rw [splitOnChar, if_pos rfl]
      simp only [List.map_cons, List.flatten_cons, List.nil_append]
      rw [ih]
      rfl
    · rw [splitOnChar, if_neg hc]
      cases hsp : splitOnChar sep t with
      | nil => exact absurd hsp (splitOnChar_ne_nil sep t)
      | cons l ls =>
        rw [hsp] at ih
        unfold consHead
        simp only [List.map_cons, List.flatten_cons, List.cons_append] at ih ⊢
        exact congrArg (c :: ·) ih

/-- C5 amended: an input at or below 4000 units is one chunk; when the
input has no empty lines and every space-separated word of each
over-4000 line fits in 3999 units, every emitted chunk is at or below
4000 units; and an over-long input with no newline at all is split only
at spaces — the chunks concatenate back to the input plus one trailing
space. -/
theorem splitAndSend_amended :
    (∀ text : List Char, text.length ≤ 4000 → splitAndSend text = [text]) ∧
    (∀ text : List Char,
        (∀ l ∈ splitOnChar '\n' text, l ≠ [] ∧
          (4000 < l.length → ∀ w ∈ splitOnChar ' ' l, w.length ≤ 3999)) →
        ∀ ch ∈ splitAndSend text, ch.length ≤ 4000) ∧
    (∀ text : List Char, '\n' ∉ text → 4000 < text.length →
        (splitAndSend text).flatten = text ++ [' ']) := by
  have hsmall : ∀ text : List Char, text.length ≤ 4000 →
      splitAndSend text = [text] := by
    intro text h
    unfold splitAndSend
    rw [if_pos h]
  refine ⟨hsmall, ?_, ?_⟩
  · intro text hhyp ch hch
    by_cases hs : text.length ≤ 4000
    · rw [hsmall text hs] at hch
      rw [List.mem_singleton.mp hch]
      exact hs
    · have hb := foldLines_bound (splitOnChar '\n' text) [] [] hhyp
        (by simp) (by simp)
      unfold splitAndSend at hch
      rw [if_neg hs] at hch
      split at hch
      · exact hb.1 ch hch
      · rcases List.mem_append.mp hch with hc | hc
        · exact hb.1 ch hc
        · rw [List.mem_singleton.mp hc]
          exact hb.2
  · intro text hnl hbig
    have hone : splitOnChar '\n' text = [text] :=
      splitOnChar_of_not_mem '\n' text hnl
    have htne : text ≠ [] := by
      apply List.ne_nil_of_length_pos
      omega
    have hstep : splitLineStep ([], []) text =
        (splitOnChar ' ' text).foldl splitWordsStep ([], []) := by
      rw [splitLineStep_eq, if_neg htne, if_pos hbig, if_pos rfl]
    have hjoin := foldWords_flatten (splitOnChar ' ' text) [] []
    rw [flatten_splitOnChar_words] at hjoin
    simp only [List.flatten_nil, List.nil_append] at hjoin
    unfold splitAndSend
    rw [if_neg (by omega), hone]
    simp only [List.foldl_cons, List.foldl_nil]
    rw [hstep]
    split
    · rename_i h2
      rw [h2, List.append_nil] at hjoin
      exact hjoin
    · rw [List.flatten_append]
      simp only [List.flatten_cons, List.flatten_nil, List.append_nil]
      exact hjoin

/-- C5 amended witness: concrete instances of all three conjuncts. -/
theorem splitAndSend_amended_witness :
    splitAndSend ['h', 'i'] = [['h', 'i']] ∧
    (['a'] : List Char).length ≤ 4000 ∧
    (splitAndSend (List.replicate 4001 'a')).flatten =
      List.replicate 4001 'a' ++ [' '] :=
  ⟨splitAndSend_amended.1 ['h', 'i'] (by decide),
   splitAndSend_amended.2.1 ['a'] (by decide) ['a'] (by decide),
   splitAndSend_amended.2.2 (List.replicate 4001 'a')
     (fun hm => absurd (List.eq_of_mem_replicate hm) (by decide))
     (by rw [List.length_replicate]; norm_num)⟩

/-! ## Renderer tier 2: `convertMarkdownToHTML` (part_002 lines 599-641)

Each `strings.ReplaceAll` / `regexp.ReplaceAllString` call of the source
is translated into a recursive scanner with the same semantics:
left-to-right, non-overlapping, continuing after each replacement, with
the Go/RE2 leftmost match and lazy (`.+?`, shortest-first) capture
behaviour, `.` not matching a newline, and the `(?m)^...$` patterns
applied line by line. -/

/-- The backquote character (code 96). -/
def backquote : Char := Char.ofNat 96

/-- `strings.ReplaceAll(text, "&", "&amp;")`. -/
def escAmp : List Char → List Char
  | [] => []
  | c :: t =>
    if c = '&' then '&' :: 'a' :: 'm' :: 'p' :: ';' :: escAmp t
    else c :: escAmp t

/-- `strings.ReplaceAll(text, "<", "&lt;")`. -/
def escLt : List Char → List Char
  | [] => []
  | c :: t =>
    if c = '<' then '&' :: 'l' :: 't' :: ';' :: escLt t
    else c :: escLt t

/-- `strings.ReplaceAll(text, ">", "&gt;")`. -/
def escGt : List Char → List Char
  | [] => []
  | c :: t =>
    if c = '>' then '&' :: 'g' :: 't' :: ';' :: escGt t
    else c :: escGt t

/-- The three escape replacements in source order (lines 601-603). -/
def escapeHTML (s : List Char) : List Char := escGt (escLt (escAmp s))

/-- Join lines back with newlines (inverse of `splitOnChar '\n'`). -/
def joinLines : List (List Char) → List Char
  | [] => []
  | [l] => l
  | l :: ls => l ++ '\n' :: joinLines ls

/-- Apply a whole-line rewrite to every line: the effect of a
`(?m)^...$` regex replacement whose replacement contains no newline. -/
def onLines (f : List Char → List Char) (s : List Char) : List Char :=
  joinLines ((splitOnChar '\n' s).map f)

/-- `(?m)^#...# (.+)$` for `n` hashes, replaced by `<hn>$1</hn>`. -/
def headerLine (n : Nat) (line : List Char) : List Char :=
  if (List.replicate n '#' ++ [' ']).isPrefixOf line ∧ line.drop (n + 1) ≠ []
  then
    ['<', 'h', Char.ofNat (48 + n), '>'] ++ line.drop (n + 1) ++
      ['<', '/', 'h', Char.ofNat (48 + n), '>']
  else line

/-- `(?m)^[\-\*] (.+)$` replaced by `• $1`. -/
def ulLine (line : List Char) : List Char :=
  match line with
  | c :: ' ' :: rest =>
    if (c = '-' ∨ c = '*') ∧ rest ≠ [] then '•' :: ' ' :: rest
    else line
  | _ => line

/-- `(?m)^(\d+)\. (.+)$` replaced by `$1. $2` (the replacement spells
the match back out). -/
def olLine (line : List Char) : List Char :=
  match line.dropWhile Char.isDigit with
  | '.' :: ' ' :: r2 =>
    if line.takeWhile Char.isDigit ≠ [] ∧ r2 ≠ [] then
      line.takeWhile Char.isDigit ++ '.' :: ' ' :: r2
    else line
  | _ => line

/-- `(?m)^> (.+)$` replaced by `>$1`. -/
def bqLine (line : List Char) : List Char :=
  match line with
  | '>' :: ' ' :: rest => if rest ≠ [] then '>' :: rest else line
  | _ => line

/-- Lazy search for the closing delimiter `d`: consume at least one
non-newline content character, stopping at the earliest position where
`d` follows (the `(.+?)` + closing-delimiter part of the inline
patterns). -/
def findClose (d : List Char) : List Char → Option (List Char × List Char)
  | [] => none
  | c :: t =>
    if c = '\n' then none
    else if d.isPrefixOf t then some ([c], t.drop d.length)
    else
      match findClose d t with
      | some (content, rest) => some (c :: content, rest)
      | none => none

theorem findClose_length (d : List Char) :
    ∀ (s content rest : List Char), findClose d s = some (content, rest) →
      rest.length < s.length := by
  intro s
  induction s with
  | nil => intro content rest h; cases h
  | cons c t ih =>
    intro content rest h
    rw [findClose] at h
    split at h
    · cases h
    · split at h
      · cases h
        rw [List.length_drop]
        simp only [List.length_cons]
        omega
      · cases hrec : findClose d t with
        | none => rw [hrec] at h; cases h
        | some pr =>
          rw [hrec] at h
          cases h
          have := ih pr.1 pr.2 (by rw [hrec])
          simp only [List.length_cons]
          omega

/-- Generic scanner for an inline pattern `d(.+?)d` replaced by
`openT $1 closeT`: find the leftmost occurrence of the delimiter with a
lazily-matched non-newline non-empty content and a closing delimiter,
replace, and continue after the match; advance one character when no
match starts here. -/
def scanPair (d openT closeT : List Char) : List Char → List Char
  | [] => []
  | c :: t =>
    if d.isPrefixOf (c :: t) then
      match h : findClose d ((c :: t).drop d.length) with
      | some (content, rest) =>
        openT ++ content ++ closeT ++ scanPair d openT closeT rest
      | none => c :: scanPair d openT closeT t
    else c :: scanPair d openT closeT t
termination_by s => s.length
decreasing_by
  · have h1 := findClose_length d _ _ _ h
    have h2 : ((c :: t).drop d.length).length ≤ (c :: t).length := by
      rw [List.length_drop]
      omega
    simp only [List.length_cons] at h2 ⊢
    omega
  · simp
  · simp

/-- Go's `\w` class: `[0-9A-Za-z_]`. -/
def isWordChar (c : Char) : Bool := c.isAlphanum || c = '_'

/-- Three backquotes, the code-fence delimiter. -/
def tickstr : List Char := [backquote, backquote, backquote]

/-- Lazy `([\s\S]*?)` up to the closing fence: split at the earliest
following triple backquote (content may be empty and may span lines). -/
def splitAtTicks : List Char → Option (List Char × List Char)
  | [] => none
  | c :: t =>
    if tickstr.isPrefixOf (c :: t) then some ([], (c :: t).drop 3)
    else
      match splitAtTicks t with
      | some (content, rest) => some (c :: content, rest)
      | none => none

theorem splitAtTicks_length :
    ∀ (s content rest : List Char), splitAtTicks s = some (content, rest) →
      rest.length < s.length := by
  intro s
  induction s with
  | nil => intro content rest h; cases h
  | cons c t ih =>
    intro content rest h
    rw [splitAtTicks] at h
    split at h
    · cases h
      rw [List.length_drop]
      simp only [List.length_cons]
      omega
    · cases hrec : splitAtTicks t with
      | none => rw [hrec] at h; cases h
      | some pr =>
        rw [hrec] at h
        cases h
        have := ih pr.1 pr.2 (by rw [hrec])
        simp only [List.length_cons]
        omega

/-- After an opening fence: skip the optional `(\w+)?` language word,
require the `\n`, then find the closing fence lazily. -/
def fenceFind (r : List Char) : Option (List Char × List Char) :=
  match r.dropWhile isWordChar with
  | '\n' :: b2 => splitAtTicks b2
  | _ => none

theorem fenceFind_length (r content rest : List Char)
    (h : fenceFind r = some (content, rest)) : rest.length < r.length := by
  rw [fenceFind] at h
  split at h
  · rename_i b2 heq
    have h1 := splitAtTicks_length b2 content rest h
    have h2 : ('\n' :: b2).length ≤ r.length := by
      rw [← heq]
      exact (List.dropWhile_suffix _).length_le
    simp only [List.length_cons] at h2
    omega
  · cases h

/-- Scanner for the code-fence pattern
`\x60\x60\x60(\w+)?\n([\s\S]*?)\x60\x60\x60` replaced by
`<code>$2</code>`. -/
def fenceScan : List Char → List Char
  | [] => []
  | c :: t =>
    if tickstr.isPrefixOf (c :: t) then
      match h : fenceFind ((c :: t).drop 3) with
      | some (content, rest) =>
        ['<', 'c', 'o', 'd', 'e', '>'] ++ content ++
          ['<', '/', 'c', 'o', 'd', 'e', '>'] ++ fenceScan rest
      | none => c :: fenceScan t
    else c :: fenceScan t
termination_by s => s.length
decreasing_by
  · have h1 := fenceFind_length _ _ _ h
    have h2 : ((c :: t).drop 3).length ≤ (c :: t).length := by
      rw [List.length_drop]
      omega
    simp only [List.length_cons] at h2 ⊢
    omega
  · simp
  · simp

/-- Backtracking search for `(.+?)\]\((.+?)\)` after an opening `[`:
content₁ is grown lazily; at each candidate `](` the second lazy
content₂-plus-`)` search runs, and on its failure content₁ keeps
growing (`.` does not match a newline). -/
def linkFind : List Char → Option (List Char × List Char × List Char)
  | [] => none
  | c :: t =>
    if c = '\n' then none
    else if [']', '('].isPrefixOf t then
      match findClose [')'] (t.drop 2) with
      | some (c2, rest) => some ([c], c2, rest)
      | none =>
        match linkFind t with
        | some (c1, c2, rest) => some (c :: c1, c2, rest)
        | none => none
    else
      match linkFind t with
      | some (c1, c2, rest) => some (c :: c1, c2, rest)
      | none => none

theorem linkFind_length :
    ∀ (s c1 c2 rest : List Char), linkFind s = some (c1, c2, rest) →
      rest.length < s.length := by
  intro s
  induction s with
  | nil => intro c1 c2 rest h; cases h
  | cons c t ih =>
    intro c1 c2 rest h
    rw [linkFind] at h
    split at h
    · cases h
    · split at h
      · cases hfc : findClose [')'] (t.drop 2) with
        | none =>
          rw [hfc] at h
          cases hrec : linkFind t with
          | none => rw [hrec] at h; cases h
          | some pr =>
            obtain ⟨p1, p2, p3⟩ := pr
            rw [hrec] at h
            have := ih p1 p2 p3 hrec
            cases h
            simp only [List.length_cons]
            omega
        | some pr =>
          obtain ⟨q1, q2⟩ := pr
          rw [hfc] at h
          cases h
          have h1 := findClose_length [')'] _ _ _ hfc
          have h2 : (t.drop 2).length ≤ t.length := by
            rw [List.length_drop]
            omega
          simp only [List.length_cons]
          omega
      · cases hrec : linkFind t with
        | none => rw [hrec] at h; cases h
        | some pr =>
          obtain ⟨p1, p2, p3⟩ := pr
          rw [hrec] at h
          have := ih p1 p2 p3 hrec
          cases h
          simp only [List.length_cons]
          omega

/-- Scanner for the link pattern `\[(.+?)\]\((.+?)\)` replaced by
`<a href="$2">$1</a>`. -/
def linkScan : List Char → List Char
  | [] => []
  | c :: t =>
    if c = '[' then
      match h : linkFind t with
      | some (c1, c2, rest) =>
        ['<', 'a', ' ', 'h', 'r', 'e', 'f', '=', '"'] ++ c2 ++
          ['"', '>'] ++ c1 ++ ['<', '/', 'a', '>'] ++ linkScan rest
      | none => c :: linkScan t
    else c :: linkScan t
termination_by s => s.length
decreasing_by
  · have h1 := linkFind_length _ _ _ _ h
    simp only [List.length_cons]
    omega
  · simp
  · simp

/-- Go `convertMarkdownToHTML`: escape `&`, `<`, `>` first, then apply
the structural substitutions in source order (headers h6..h1, bold,
italic, strikethrough, code fence, inline code, links, unordered and
ordered lists, blockquotes). -/
def convertMarkdownToHTML (text : List Char) : List Char :=
  onLines bqLine (onLines olLine (onLines ulLine (linkScan
    (scanPair [backquote] ['<', 'c', 'o', 'd', 'e', '>']
        ['<', '/', 'c', 'o', 'd', 'e', '>'] (fenceScan
      (scanPair ['~', '~'] ['<', 's', '>'] ['<', '/', 's', '>']
        (scanPair ['_'] ['<', 'i', '>'] ['<', '/', 'i', '>']
          (scanPair ['*'] ['<', 'i', '>'] ['<', '/', 'i', '>']
            (scanPair ['_', '_'] ['<', 'b', '>'] ['<', '/', 'b', '>']
              (scanPair ['*', '*'] ['<', 'b', '>'] ['<', '/', 'b', '>']
                (onLines (headerLine 1) (onLines (headerLine 2)
                  (onLines (headerLine 3) (onLines (headerLine 4)
                    (onLines (headerLine 5) (onLines (headerLine 6)
                      (escapeHTML text)))))))))))))))))

/-! ### Occurrence counting

`countOcc pat s` counts the positions of `s` at which `pat` occurs.
The C8 theorem tracks occurrences of the escaped form `&lt;`. -/

def countOcc (pat : List Char) : List Char → Nat
  | [] => 0
  | c :: t => (if pat.isPrefixOf (c :: t) then 1 else 0) + countOcc pat t

/-- The escape sequence `&lt;`. -/
def ltEsc : List Char := ['&', 'l', 't', ';']

/-- What the three-stage escape turns a single character into. -/
def echar (c : Char) : List Char :=
  if c = '&' then ['&', 'a', 'm', 'p', ';']
  else if c = '<' then ['&', 'l', 't', ';']
  else if c = '>' then ['&', 'g', 't', ';']
  else [c]

theorem escLt_append (x y : List Char) : escLt (x ++ y) = escLt x ++ escLt y := by
  induction x with
  | nil => rfl
  | cons c t ih =>
    simp only [List.cons_append, escLt]
    split <;> simp [ih]

theorem escGt_append (x y : List Char) : escGt (x ++ y) = escGt x ++ escGt y := by
  induction x with
  | nil => rfl
  | cons c t ih =>
    simp only [List.cons_append, escGt]
    split <;> simp [ih]

theorem escapeHTML_cons (c : Char) (t : List Char) :
    escapeHTML (c :: t) = echar c ++ escapeHTML t := by
  by_cases h1 : c = '&'
  · subst h1
    show escGt (escLt (escAmp ('&' :: t))) = _
    rw [show escAmp ('&' :: t) = ['&', 'a', 'm', 'p', ';'] ++ escAmp t by
      simp [escAmp]]
    rw [escLt_append, escGt_append]
    rfl
  · by_cases h2 : c = '<'
    · subst h2
      show escGt (escLt (escAmp ('<' :: t))) = _
      rw [show escAmp ('<' :: t) = ['<'] ++ escAmp t by simp [escAmp]]
      rw [escLt_append, escGt_append]
      rfl
    · by_cases h3 : c = '>'
      · subst h3
        show escGt (escLt (escAmp ('>' :: t))) = _
        rw [show escAmp ('>' :: t) = ['>'] ++ escAmp t by simp [escAmp]]
        rw [escLt_append, escGt_append]
        rfl
      · show escGt (escLt (escAmp (c :: t))) = _
        rw [show escAmp (c :: t) = [c] ++ escAmp t by simp [escAmp, h1]]
        rw [escLt_append, escGt_append]
        rw [show escGt (escLt [c]) = [c] by simp [escLt, escGt, h2, h3]]
        simp [echar, h1, h2, h3, escapeHTML]

theorem escapeHTML_flat (s : List Char) :
    escapeHTML s = (s.map echar).flatten := by
  induction s with
  | nil => rfl
  | cons c t ih =>
    rw [escapeHTML_cons, ih]
    simp

/-- Characters of the escaped text: only characters of the original
text or characters of the fixed escape sequences. -/
theorem mem_escapeHTML (x : Char) (s : List Char)
    (hx : x ∈ escapeHTML s) :
    x ∈ s ∨ x ∈ (['&', 'a', 'm', 'p', 'l', 't', 'g', ';'] : List Char) := by
  rw [escapeHTML_flat] at hx
  obtain ⟨block, hb, hxb⟩ := List.mem_flatten.mp hx
  obtain ⟨c, hcs, hcb⟩ := List.mem_map.mp hb
  subst hcb
  unfold echar at hxb
  split at hxb
  · right
    simp only [List.mem_cons, List.not_mem_nil, or_false] at hxb
    rcases hxb with h | h | h | h | h <;> simp [h]
  · split at hxb
    · right
      simp only [List.mem_cons, List.not_mem_nil, or_false] at hxb
      rcases hxb with h | h | h | h <;> simp [h]
    · split at hxb
      · right
        simp only [List.mem_cons, List.not_mem_nil, or_false] at hxb
        rcases hxb with h | h | h | h <;> simp [h]
      · left
        rw [List.mem_singleton.mp hxb]
        exact hcs

theorem lt_not_mem_escapeHTML (s : List Char) : '<' ∉ escapeHTML s := by
  intro hx
  rw [escapeHTML_flat] at hx
  obtain ⟨block, hb, hxb⟩ := List.mem_flatten.mp hx
  obtain ⟨c, _, hcb⟩ := List.mem_map.mp hb
  subst hcb
  unfold echar at hxb
  split at hxb
  · simp at hxb
  · split at hxb
    · simp at hxb
    · split at hxb
      · simp at hxb
      · rename_i h1 h2 h3
        exact h2 (List.mem_singleton.mp hxb).symm

theorem gt_not_mem_escapeHTML (s : List Char) : '>' ∉ escapeHTML s := by
  intro hx
  rw [escapeHTML_flat] at hx
  obtain ⟨block, hb, hxb⟩ := List.mem_flatten.mp hx
  obtain ⟨c, _, hcb⟩ := List.mem_map.mp hb
  subst hcb
  unfold echar at hxb
  split at hxb
  · simp at hxb
  · split at hxb
    · simp at hxb
    · split at hxb
      · simp at hxb
      · rename_i h1 h2 h3
        exact h3 (List.mem_singleton.mp hxb).symm

theorem countOcc_echar_append (c : Char) (r : List Char) :
    countOcc ltEsc (echar c ++ r) =
      (if c = '<' then 1 else 0) + countOcc ltEsc r := by
  by_cases h1 : c = '&'
  · subst h1
    simp [echar, countOcc, ltEsc, List.isPrefixOf]
  · by_cases h2 : c = '<'
    · subst h2
      simp [echar, countOcc, ltEsc, List.isPrefixOf]
    · by_cases h3 : c = '>'
      · subst h3
        simp [echar, countOcc, ltEsc, List.isPrefixOf]
      · have hc : ('&' == c) = false := by
          simp only [beq_eq_false_iff_ne, ne_eq]
          exact fun h => h1 h.symm
        simp [echar, h1, h2, h3, countOcc, ltEsc, List.isPrefixOf, hc]

/-- Core escape property: the escaped text contains exactly one `&lt;`
occurrence per literal `<` of the input. -/
theorem countOcc_ltEsc_escapeHTML (s : List Char) :
    countOcc ltEsc (escapeHTML s) = s.count '<' := by
  induction s with
  | nil => rfl
  | cons c t ih =>
    rw [escapeHTML_cons, countOcc_echar_append, ih, List.count_cons]
    by_cases h : c = '<'
    · simp only [if_pos h, h, beq_self_eq_true, if_true]
      omega
    · have hb : (c == '<') = false := by
        simp only [beq_eq_false_iff_ne, ne_eq]
        exact h
      simp [h, hb]

/-! ### Occurrence-counting append laws

`&lt;` occurrences cannot start inside a block containing no `&`, and
cannot straddle a concatenation boundary whose right side does not start
with `l`, `t` or `;`. -/

/-- A list that cannot continue a partial `&lt;` occurrence from the
left of a concatenation boundary. -/
def ltBlocked (c : Char) : Prop := c ≠ 'l' ∧ c ≠ 't' ∧ c ≠ ';'

theorem countOcc_cons_not_amp (c : Char) (X : List Char) (h : c ≠ '&') :
    countOcc ltEsc (c :: X) = countOcc ltEsc X := by
  have hb : ('&' == c) = false := by
    simp only [beq_eq_false_iff_ne, ne_eq]
    exact fun hh => h hh.symm
  simp [countOcc, ltEsc, List.isPrefixOf, hb]

theorem countOcc_noamp_append (A B : List Char) (h : '&' ∉ A) :
    countOcc ltEsc (A ++ B) = countOcc ltEsc B := by
  induction A with
  | nil => rfl
  | cons a A' ih =>
    have ha : a ≠ '&' := fun he => h (he ▸ List.mem_cons_self a A')
    have hA' : '&' ∉ A' := fun hm => h (List.mem_cons_of_mem a hm)
    rw [List.cons_append, countOcc_cons_not_amp a _ ha, ih hA']

theorem countOcc_noamp (A : List Char) (h : '&' ∉ A) :
    countOcc ltEsc A = 0 := by
  have := countOcc_noamp_append A [] h
  rw [List.append_nil] at this
  rw [this]
  rfl

/-- Whether a pattern matches at a concatenation boundary position is
determined by the left part alone, provided the pattern character at
the boundary index differs from the right part's first character. -/
theorem isPrefixOf_boundary (p : List Char) :
    ∀ (X B : List Char), X ≠ [] →
      (∀ c, B.head? = some c → p.get? X.length ≠ some c) →
      (p.isPrefixOf (X ++ B)) = (p.isPrefixOf X) := by
  induction p with
  | nil =>
    intro X B hXne _
    cases X with
    | nil => exact absurd rfl hXne
    | cons x X' => rfl
  | cons q p' ihp =>
    intro X B hXne hB
    cases X with
    | nil => exact absurd rfl hXne
    | cons x X' =>
      have hL : (q :: p').isPrefixOf ((x :: X') ++ B)
          = (q == x && p'.isPrefixOf (X' ++ B)) := rfl
      have hR : (q :: p').isPrefixOf (x :: X')
          = (q == x && p'.isPrefixOf X') := rfl
      rw [hL, hR]
      cases hX' : X' with
      | nil =>
        cases p' with
        | nil => cases B <;> rfl
        | cons q' p'' =>
          have hfalse : (q' :: p'').isPrefixOf ([] ++ B) = false := by
            cases B with
            | nil => rfl
            | cons b B' =>
              have hqb : (q' == b) = false := by
                simp only [beq_eq_false_iff_ne, ne_eq]
                intro he
                refine hB b rfl ?_
                subst hX'
                subst he
                rfl
              show (q' == b && _) = false
              rw [hqb]
              rfl
          rw [hfalse]
          rfl
      | cons x2 X'' =>
        rw [← hX']
        have hcond : ∀ c, B.head? = some c → p'.get? X'.length ≠ some c := by
          intro c hc heq
          refine hB c hc ?_
          simpa [List.get?, List.length_cons] using heq
        rw [ihp X' B (by rw [hX']; simp) hcond]

theorem countOcc_append_blocked (A B : List Char)
    (hB : ∀ c, B.head? = some c → ltBlocked c) :
    countOcc ltEsc (A ++ B) = countOcc ltEsc A + countOcc ltEsc B := by
  induction A with
  | nil => simp [countOcc]
  | cons a A' ih =>
    rw [List.cons_append]
    have hpre : (ltEsc.isPrefixOf (a :: (A' ++ B)))
        = (ltEsc.isPrefixOf (a :: A')) := by
      have hbnd := isPrefixOf_boundary ltEsc (a :: A') B (by simp) ?_
      · simpa using hbnd
      · intro c hc heq
        obtain ⟨h1, h2, h3⟩ := hB c hc
        simp only [List.length_cons] at heq
        match hA : A'.length with
        | 0 =>
          rw [hA] at heq
          have hv : ltEsc.get? (0 + 1) = some ('l' : Char) := rfl
          exact h1 (Option.some_injective _ (heq.symm.trans hv))
        | 1 =>
          rw [hA] at heq
          have hv : ltEsc.get? (1 + 1) = some ('t' : Char) := rfl
          exact h2 (Option.some_injective _ (heq.symm.trans hv))
        | 2 =>
          rw [hA] at heq
          have hv : ltEsc.get? (2 + 1) = some (';' : Char) := rfl
          exact h3 (Option.some_injective _ (heq.symm.trans hv))
        | (k + 3) =>
          rw [hA] at heq
          rw [List.get?_eq_none.mpr (by simp [ltEsc])] at heq
          cases heq
    show (if ltEsc.isPrefixOf (a :: (A' ++ B)) then 1 else 0) +
        countOcc ltEsc (A' ++ B) = _
    rw [hpre, ih]
    show _ = (if ltEsc.isPrefixOf (a :: A') then 1 else 0) +
        countOcc ltEsc A' + countOcc ltEsc B
    omega

/-- Occurrence count across a non-empty append whose right side starts
with a character that cannot continue a partial match. -/
theorem countOcc_append_head_lt (A B : List Char) (b : Char)
    (hb : B.head? = some b) (hbl : ltBlocked b) :
    countOcc ltEsc (A ++ B) = countOcc ltEsc A + countOcc ltEsc B :=
  countOcc_append_blocked A B (by intro c hc; rw [hb] at hc; cases hc; exact hbl)

/-! ### Line-wise pass machinery -/

theorem joinLines_cons_ne (l : List Char) (ls : List (List Char))
    (h : ls ≠ []) : joinLines (l :: ls) = l ++ '\n' :: joinLines ls := by
  cases ls with
  | nil => exact absurd rfl h
  | cons l2 ls' => rfl

theorem joinLines_splitOnChar (s : List Char) :
    joinLines (splitOnChar '\n' s) = s := by
  induction s with
  | nil => rfl
  | cons c t ih =>
    rw [splitOnChar]
    by_cases hc : c = '\n'
    · rw [if_pos hc,
        joinLines_cons_ne _ _ (splitOnChar_ne_nil '\n' t), ih, hc]
      rfl
    · rw [if_neg hc]
      cases hsp : splitOnChar '\n' t with
      | nil => exact absurd hsp (splitOnChar_ne_nil '\n' t)
      | cons l ls =>
        rw [hsp] at ih
        cases ls with
        | nil =>
          show joinLines [c :: l] = c :: t
          have : joinLines [l] = t := ih
          show c :: l = c :: t
          rw [show l = t from this]
        | cons l2 ls' =>
          show joinLines ((c :: l) :: l2 :: ls') = c :: t
          rw [joinLines_cons_ne l (l2 :: ls') (by simp)] at ih
          rw [joinLines_cons_ne (c :: l) (l2 :: ls') (by simp),
            List.cons_append, ih]

theorem countOcc_joinLines (ls : List (List Char)) (h : ls ≠ []) :
    countOcc ltEsc (joinLines ls) = (ls.map (countOcc ltEsc)).sum := by
  induction ls with
  | nil => exact absurd rfl h
  | cons l ls' ih =>
    cases ls' with
    | nil => simp [joinLines]
    | cons l2 ls'' =>
      rw [joinLines_cons_ne _ _ (by simp)]
      rw [countOcc_append_head_lt l ('\n' :: joinLines (l2 :: ls'')) '\n' rfl
        ⟨by decide, by decide, by decide⟩]
      rw [countOcc_cons_not_amp _ _ (by decide)]
      rw [ih (by simp)]
      simp

theorem countOcc_onLines (f : List Char → List Char)
    (hf : ∀ l, countOcc ltEsc (f l) = countOcc ltEsc l) (s : List Char) :
    countOcc ltEsc (onLines f s) = countOcc ltEsc s := by
  unfold onLines
  have h1 : (splitOnChar '\n' s).map f ≠ [] := by
    simp only [ne_eq, List.map_eq_nil]
    exact splitOnChar_ne_nil '\n' s
  rw [countOcc_joinLines _ h1, List.map_map]
  have h2 : (splitOnChar '\n' s).map (countOcc ltEsc ∘ f)
      = (splitOnChar '\n' s).map (countOcc ltEsc) :=
    List.map_congr_left (fun l _ => hf l)
  rw [h2, ← countOcc_joinLines _ (splitOnChar_ne_nil '\n' s),
    joinLines_splitOnChar]

theorem onLines_id (f : List Char → List Char) (s : List Char)
    (hf : ∀ l ∈ splitOnChar '\n' s, f l = l) : onLines f s = s := by
  unfold onLines
  rw [show (splitOnChar '\n' s).map f = (splitOnChar '\n' s).map id from
    List.map_congr_left (by simpa using hf), List.map_id]
  exact joinLines_splitOnChar s

theorem mem_of_mem_splitOnChar (sep c : Char) :
    ∀ (s l : List Char), l ∈ splitOnChar sep s → c ∈ l → c ∈ s := by
  intro s
  induction s with
  | nil =>
    intro l hl hc
    simp [splitOnChar] at hl
    subst hl
    cases hc
  | cons c' t ih =>
    intro l hl hc
    rw [splitOnChar] at hl
    by_cases hcs : c' = sep
    · rw [if_pos hcs] at hl
      rcases List.mem_cons.mp hl with h | h
      · subst h; cases hc
      · exact List.mem_cons_of_mem c' (ih l h hc)
    · rw [if_neg hcs] at hl
      cases hsp : splitOnChar sep t with
      | nil => exact absurd hsp (splitOnChar_ne_nil sep t)
      | cons m ms =>
        rw [hsp] at hl
        unfold consHead at hl
        rcases List.mem_cons.mp hl with h | h
        · subst h
          rcases List.mem_cons.mp hc with h2 | h2
          · exact h2 ▸ List.mem_cons_self c' t
          · exact List.mem_cons_of_mem c'
              (ih m (hsp ▸ List.mem_cons_self m ms) h2)
        · exact List.mem_cons_of_mem c'
            (ih l (hsp ▸ List.mem_cons_of_mem m h) hc)

/-! ### Per-line substitution lemmas -/

theorem headerLine_count (n : Nat) (hd : ('&' : Char) ≠ Char.ofNat (48 + n))
    (line : List Char) :
    countOcc ltEsc (headerLine n line) = countOcc ltEsc line := by
  unfold headerLine
  split
  · rename_i hp
    have hpre : (List.replicate n '#' ++ [' ']) <+: line :=
      List.isPrefixOf_iff_prefix.mp hp.1
    have hlen : (List.replicate n '#' ++ [' '] : List Char).length = n + 1 := by
      simp
    have hline : (List.replicate n '#' ++ [' ']) ++ line.drop (n + 1) = line := by
      have := List.prefix_iff_eq_append.mp hpre
      rw [hlen] at this
      exact this
    have hnoamp1 : ('&' : Char) ∉ List.replicate n '#' ++ [' '] := by
      intro hm
      rcases List.mem_append.mp hm with hm | hm
      · exact absurd (List.eq_of_mem_replicate hm) (by decide)
      · simp at hm
    have hnoamp2 : ('&' : Char) ∉
        (['<', 'h', Char.ofNat (48 + n), '>'] : List Char) := by
      intro hm
      simp only [List.mem_cons, List.not_mem_nil, or_false] at hm
      rcases hm with h | h | h | h
      · exact absurd h (by decide)
      · exact absurd h (by decide)
      · exact hd h
      · exact absurd h (by decide)
    have hnoamp3 : ('&' : Char) ∉
        (['<', '/', 'h', Char.ofNat (48 + n), '>'] : List Char) := by
      intro hm
      simp only [List.mem_cons, List.not_mem_nil, or_false] at hm
      rcases hm with h | h | h | h | h
      · exact absurd h (by decide)
      · exact absurd h (by decide)
      · exact absurd h (by decide)
      · exact hd h
      · exact absurd h (by decide)
    rw [List.append_assoc, countOcc_noamp_append _ _ hnoamp2,
      countOcc_append_head_lt (line.drop (n + 1))
        (['<', '/', 'h', Char.ofNat (48 + n), '>']) '<' rfl
        ⟨by decide, by decide, by decide⟩,
      countOcc_noamp _ hnoamp3]
    conv_rhs => rw [← hline]
    rw [countOcc_noamp_append _ _ hnoamp1]
    omega
  · rfl

theorem headerLine_id (n : Nat) (hn : 1 ≤ n) (line : List Char)
    (h : '#' ∉ line) : headerLine n line = line := by
  unfold headerLine
  rw [if_neg]
  intro hp
  have hpre : (List.replicate n '#' ++ [' ']) <+: line :=
    List.isPrefixOf_iff_prefix.mp hp.1
  have hmem : ('#' : Char) ∈ List.replicate n '#' ++ [' '] := by
    apply List.mem_append_left
    exact List.mem_replicate.mpr ⟨by omega, rfl⟩
  exact h (hpre.sublist.mem hmem)

theorem ulLine_count (line : List Char) :
    countOcc ltEsc (ulLine line) = countOcc ltEsc line := by
  unfold ulLine
  split
  · rename_i c rest
    split
    · rename_i hcond
      have hc : c ≠ '&' := by
        rcases hcond.1 with h | h <;> subst h <;> decide
      rw [countOcc_cons_not_amp _ _ (by decide),
        countOcc_cons_not_amp _ _ (by decide),
        countOcc_cons_not_amp _ _ hc,
        countOcc_cons_not_amp _ _ (by decide)]
    · rfl
  · rfl

theorem ulLine_id (line : List Char) (h1 : '-' ∉ line) (h2 : '*' ∉ line) :
    ulLine line = line := by
  unfold ulLine
  split
  · rename_i c rest
    rw [if_neg]
    intro hcond
    rcases hcond.1 with h | h
    · subst h
      exact h1 (List.mem_cons_self _ _)
    · subst h
      exact h2 (List.mem_cons_self _ _)
  · rfl

theorem olLine_eq (line : List Char) : olLine line = line := by
  unfold olLine
  split
  · rename_i r2 heq
    split
    · conv_rhs => rw [← List.takeWhile_append_dropWhile (p := Char.isDigit)
        (l := line)]
      rw [heq]
    · rfl
  · rfl

theorem bqLine_count (line : List Char) :
    countOcc ltEsc (bqLine line) = countOcc ltEsc line := by
  unfold bqLine
  split
  · rename_i rest
    split
    · rw [countOcc_cons_not_amp _ _ (by decide),
        countOcc_cons_not_amp _ _ (by decide),
        countOcc_cons_not_amp _ _ (by decide)]
    · rfl
  · rfl

theorem bqLine_id (line : List Char) (h : '>' ∉ line) : bqLine line = line := by
  unfold bqLine
  split
  · rename_i rest
    exact absurd (List.mem_cons_self _ _) h
  · rfl

/-! ### Inline-scanner lemmas -/

theorem nil_isPrefixOf_eq (X : List Char) :
    (([] : List Char).isPrefixOf X) = true := by
  cases X <;> rfl

theorem isPrefixOf_cons_cons (q : Char) (p' : List Char) (x : Char)
    (y : List Char) :
    ((q :: p').isPrefixOf (x :: y)) = (q == x && p'.isPrefixOf y) := rfl

theorem prefix_restore (d x : List Char) (h : d.isPrefixOf x = true) :
    d ++ x.drop d.length = x := by
  have hpre : d <+: x := List.isPrefixOf_iff_prefix.mp h
  exact List.prefix_iff_eq_append.mp hpre

theorem findClose_spec (d : List Char) :
    ∀ (x content rest : List Char), findClose d x = some (content, rest) →
      x = (content ++ d) ++ rest ∧ content ≠ [] ∧ '\n' ∉ content := by
  intro x
  induction x with
  | nil => intro content rest h; cases h
  | cons c t ih =>
    intro content rest h
    rw [findClose] at h
    split at h
    · cases h
    · rename_i hnl
      split at h
      · rename_i hdp
        cases h
        refine ⟨?_, by simp, by simpa using Ne.symm hnl⟩
        have := prefix_restore d t hdp
        conv_lhs => rw [← this]
        simp
      · cases hrec : findClose d t with
        | none => rw [hrec] at h; cases h
        | some pr =>
          obtain ⟨pc, pr2⟩ := pr
          rw [hrec] at h
          have hspec := ih pc pr2 hrec
          rw [Option.some.injEq, Prod.mk.injEq] at h
          obtain ⟨hA, hB⟩ := h
          subst hA
          subst hB
          refine ⟨?_, by simp, ?_⟩
          · rw [show ((c :: pc) ++ d) ++ pr2 = c :: ((pc ++ d) ++ pr2) by
              simp]
            rw [← hspec.1]
          · intro hm
            rcases List.mem_cons.mp hm with hm | hm
            · exact hnl hm.symm
            · exact hspec.2.2 hm

theorem scanPair_nil (d openT closeT : List Char) :
    scanPair d openT closeT [] = [] := by
  rw [scanPair]

theorem scanPair_found (d openT closeT : List Char) (c : Char)
    (t content rest : List Char) (h1 : d.isPrefixOf (c :: t) = true)
    (h2 : findClose d ((c :: t).drop d.length) = some (content, rest)) :
    scanPair d openT closeT (c :: t) =
      openT ++ content ++ closeT ++ scanPair d openT closeT rest := by
  rw [scanPair]
  rw [if_pos h1, h2]

theorem scanPair_nofind (d openT closeT : List Char) (c : Char)
    (t : List Char) (h1 : d.isPrefixOf (c :: t) = true)
    (h2 : findClose d ((c :: t).drop d.length) = none) :
    scanPair d openT closeT (c :: t) = c :: scanPair d openT closeT t := by
  rw [scanPair]
  rw [if_pos h1, h2]

theorem scanPair_skip (d openT closeT : List Char) (c : Char)
    (t : List Char) (h1 : ¬ d.isPrefixOf (c :: t) = true) :
    scanPair d openT closeT (c :: t) = c :: scanPair d openT closeT t := by
  rw [scanPair]
  rw [if_neg h1]

/-- Occurrence-count invariance and `&lt;`-tail-prefix invariance of a
generic inline-pattern scanner: the delimiter and the inserted tags
contain no `&` and do not start with `l`, `t` or `;`, so no `&lt;`
occurrence is created or destroyed. -/
theorem scanPair_count (d openT closeT : List Char)
    (hdne : d ≠ []) (hdamp : '&' ∉ d)
    (hdhd : ∀ c, d.head? = some c → ltBlocked c)
    (hone : openT ≠ []) (hoamp : '&' ∉ openT)
    (hohd : ∀ c, openT.head? = some c → ltBlocked c)
    (hcne : closeT ≠ []) (hcamp : '&' ∉ closeT)
    (hchd : ∀ c, closeT.head? = some c → ltBlocked c) :
    ∀ s : List Char,
      countOcc ltEsc (scanPair d openT closeT s) = countOcc ltEsc s ∧
      ∀ j, 1 ≤ j → j ≤ 3 →
        ((ltEsc.drop j).isPrefixOf (scanPair d openT closeT s))
          = ((ltEsc.drop j).isPrefixOf s) := by
  intro s
  induction s using scanPair.induct d openT closeT with
  | case1 =>
    rw [scanPair_nil]
    exact ⟨rfl, fun j _ _ => rfl⟩
  | case2 c t h1 content rest h2 ih =>
    rw [scanPair_found d openT closeT c t content rest h1 h2]
    obtain ⟨ihc, ihp⟩ := ih
    obtain ⟨hx, hcne2, hnl⟩ := findClose_spec d _ _ _ h2
    have hsplit : c :: t = d ++ (content ++ (d ++ rest)) := by
      conv_lhs => rw [← prefix_restore d (c :: t) h1, hx]
      simp
    obtain ⟨dh, dt, hdeq⟩ := List.exists_cons_of_ne_nil hdne
    obtain ⟨oh, ot, hoeq⟩ := List.exists_cons_of_ne_nil hone
    obtain ⟨ch, ct, hceq⟩ := List.exists_cons_of_ne_nil hcne
    have hdb : ltBlocked dh := hdhd dh (by rw [hdeq]; rfl)
    have hob : ltBlocked oh := hohd oh (by rw [hoeq]; rfl)
    have hcb : ltBlocked ch := hchd ch (by rw [hceq]; rfl)
    constructor
    · rw [show openT ++ content ++ closeT ++ scanPair d openT closeT rest
        = openT ++ (content ++ (closeT ++ scanPair d openT closeT rest)) by
          simp]
      rw [countOcc_noamp_append _ _ hoamp]
      rw [countOcc_append_head_lt content _ ch
        (by rw [hceq]; rfl) hcb]
      rw [countOcc_noamp_append _ _ hcamp, ihc]
      conv_rhs => rw [hsplit]
      rw [countOcc_noamp_append _ _ hdamp]
      rw [countOcc_append_head_lt content _ dh (by rw [hdeq]; rfl) hdb]
      rw [countOcc_noamp_append _ _ hdamp]
    · intro j hj1 hj3
      have hL : openT ++ content ++ closeT ++ scanPair d openT closeT rest
          = oh :: (ot ++ content ++ closeT ++ scanPair d openT closeT rest) := by
        rw [hoeq]
        simp
      have hR : c = dh := by
        rw [hdeq] at h1
        rw [isPrefixOf_cons_cons] at h1
        have := (Bool.and_eq_true _ _).mp h1
        exact (beq_iff_eq.mp this.1).symm
      rw [hL]
      interval_cases j
      · rw [show ltEsc.drop 1 = ['l', 't', ';'] from rfl,
          isPrefixOf_cons_cons, isPrefixOf_cons_cons]
        have h1f : (('l' : Char) == oh) = false := by
          simp only [beq_eq_false_iff_ne, ne_eq]
          exact fun he => hob.1 he.symm
        have h2f : (('l' : Char) == c) = false := by
          simp only [beq_eq_false_iff_ne, ne_eq]
          rw [hR]
          exact fun he => hdb.1 he.symm
        rw [h1f, h2f]
        rfl
      · rw [show ltEsc.drop 2 = ['t', ';'] from rfl,
          isPrefixOf_cons_cons, isPrefixOf_cons_cons]
        have h1f : (('t' : Char) == oh) = false := by
          simp only [beq_eq_false_iff_ne, ne_eq]
          exact fun he => hob.2.1 he.symm
        have h2f : (('t' : Char) == c) = false := by
          simp only [beq_eq_false_iff_ne, ne_eq]
          rw [hR]
          exact fun he => hdb.2.1 he.symm
        rw [h1f, h2f]
        rfl
      · rw [show ltEsc.drop 3 = [';'] from rfl,
          isPrefixOf_cons_cons, isPrefixOf_cons_cons]
        have h1f : ((';' : Char) == oh) = false := by
          simp only [beq_eq_false_iff_ne, ne_eq]
          exact fun he => hob.2.2 he.symm
        have h2f : ((';' : Char) == c) = false := by
          simp only [beq_eq_false_iff_ne, ne_eq]
          rw [hR]
          exact fun he => hdb.2.2 he.symm
        rw [h1f, h2f]
        rfl
  | case3 c t h1 h2 ih =>
    rw [scanPair_nofind d openT closeT c t h1 h2]
    obtain ⟨ihc, ihp⟩ := ih
    constructor
    · show (if ltEsc.isPrefixOf (c :: scanPair d openT closeT t)
          then 1 else 0) + countOcc ltEsc (scanPair d openT closeT t)
        = (if ltEsc.isPrefixOf (c :: t) then 1 else 0) + countOcc ltEsc t
      rw [ihc,
        show ltEsc.isPrefixOf (c :: scanPair d openT closeT t)
          = ('&' == c && (ltEsc.drop 1).isPrefixOf
              (scanPair d openT closeT t)) from rfl,
        show ltEsc.isPrefixOf (c :: t)
          = ('&' == c && (ltEsc.drop 1).isPrefixOf t) from rfl,
        ihp 1 (by omega) (by omega)]
    · intro j hj1 hj3
      interval_cases j
      · rw [show ltEsc.drop 1 = ['l', 't', ';'] from rfl,
          isPrefixOf_cons_cons, isPrefixOf_cons_cons,
          show (['t', ';'] : List Char) = ltEsc.drop 2 from rfl,
          ihp 2 (by omega) (by omega)]
      · rw [show ltEsc.drop 2 = ['t', ';'] from rfl,
          isPrefixOf_cons_cons, isPrefixOf_cons_cons,
          show ([';'] : List Char) = ltEsc.drop 3 from rfl,
          ihp 3 (by omega) (by omega)]
      · rw [show ltEsc.drop 3 = [';'] from rfl,
          isPrefixOf_cons_cons, isPrefixOf_cons_cons,
          nil_isPrefixOf_eq, nil_isPrefixOf_eq]
  | case4 c t h1 ih =>
    rw [scanPair_skip d openT closeT c t h1]
    obtain ⟨ihc, ihp⟩ := ih
    constructor
    · show (if ltEsc.isPrefixOf (c :: scanPair d openT closeT t)
          then 1 else 0) + countOcc ltEsc (scanPair d openT closeT t)
        = (if ltEsc.isPrefixOf (c :: t) then 1 else 0) + countOcc ltEsc t
      rw [ihc,
        show ltEsc.isPrefixOf (c :: scanPair d openT closeT t)
          = ('&' == c && (ltEsc.drop 1).isPrefixOf
              (scanPair d openT closeT t)) from rfl,
        show ltEsc.isPrefixOf (c :: t)
          = ('&' == c && (ltEsc.drop 1).isPrefixOf t) from rfl,
        ihp 1 (by omega) (by omega)]
    · intro j hj1 hj3
      interval_cases j
      · rw [show ltEsc.drop 1 = ['l', 't', ';'] from rfl,
          isPrefixOf_cons_cons, isPrefixOf_cons_cons,
          show (['t', ';'] : List Char) = ltEsc.drop 2 from rfl,
          ihp 2 (by omega) (by omega)]
      · rw [show ltEsc.drop 2 = ['t', ';'] from rfl,
          isPrefixOf_cons_cons, isPrefixOf_cons_cons,
          show ([';'] : List Char) = ltEsc.drop 3 from rfl,
          ihp 3 (by omega) (by omega)]
      · rw [show ltEsc.drop 3 = [';'] from rfl,
          isPrefixOf_cons_cons, isPrefixOf_cons_cons,
          nil_isPrefixOf_eq, nil_isPrefixOf_eq]

/-- A scanner step that copies one character verbatim preserves both the
occurrence count and the partial-match prefixes. -/
theorem consStep_count (c : Char) (t X : List Char)
    (ihc : countOcc ltEsc X = countOcc ltEsc t)
    (ihp : ∀ j, 1 ≤ j → j ≤ 3 →
      ((ltEsc.drop j).isPrefixOf X) = ((ltEsc.drop j).isPrefixOf t)) :
    countOcc ltEsc (c :: X) = countOcc ltEsc (c :: t) ∧
    ∀ j, 1 ≤ j → j ≤ 3 →
      ((ltEsc.drop j).isPrefixOf (c :: X))
        = ((ltEsc.drop j).isPrefixOf (c :: t)) := by
  constructor
  · show (if ltEsc.isPrefixOf (c :: X) then 1 else 0) + countOcc ltEsc X
      = (if ltEsc.isPrefixOf (c :: t) then 1 else 0) + countOcc ltEsc t
    rw [ihc,
      show ltEsc.isPrefixOf (c :: X)
        = ('&' == c && (ltEsc.drop 1).isPrefixOf X) from rfl,
      show ltEsc.isPrefixOf (c :: t)
        = ('&' == c && (ltEsc.drop 1).isPrefixOf t) from rfl,
      ihp 1 (by omega) (by omega)]
  · intro j hj1 hj3
    interval_cases j
    · rw [show ltEsc.drop 1 = ['l', 't', ';'] from rfl,
        isPrefixOf_cons_cons, isPrefixOf_cons_cons,
        show (['t', ';'] : List Char) = ltEsc.drop 2 from rfl,
        ihp 2 (by omega) (by omega)]
    · rw [show ltEsc.drop 2 = ['t', ';'] from rfl,
        isPrefixOf_cons_cons, isPrefixOf_cons_cons,
        show ([';'] : List Char) = ltEsc.drop 3 from rfl,
        ihp 3 (by omega) (by omega)]
    · rw [show ltEsc.drop 3 = [';'] from rfl,
        isPrefixOf_cons_cons, isPrefixOf_cons_cons,
        nil_isPrefixOf_eq, nil_isPrefixOf_eq]

/-- Partial-match tails of `&lt;` start with `l`, `t` or `;`, so they
match neither of two lists whose heads are blocked characters. -/
theorem drop_isPrefixOf_blocked (a b : Char) (X Y : List Char)
    (ha : ltBlocked a) (hb : ltBlocked b) :
    ∀ j, 1 ≤ j → j ≤ 3 →
      ((ltEsc.drop j).isPrefixOf (a :: X)) = ((ltEsc.drop j).isPrefixOf (b :: Y)) := by
  intro j hj1 hj3
  interval_cases j
  · rw [show ltEsc.drop 1 = ['l', 't', ';'] from rfl,
      isPrefixOf_cons_cons, isPrefixOf_cons_cons,
      show (('l' : Char) == a) = false by
        simp only [beq_eq_false_iff_ne, ne_eq]
        exact fun he => ha.1 he.symm,
      show (('l' : Char) == b) = false by
        simp only [beq_eq_false_iff_ne, ne_eq]
        exact fun he => hb.1 he.symm,
      Bool.false_and, Bool.false_and]
  · rw [show ltEsc.drop 2 = ['t', ';'] from rfl,
      isPrefixOf_cons_cons, isPrefixOf_cons_cons,
      show (('t' : Char) == a) = false by
        simp only [beq_eq_false_iff_ne, ne_eq]
        exact fun he => ha.2.1 he.symm,
      show (('t' : Char) == b) = false by
        simp only [beq_eq_false_iff_ne, ne_eq]
        exact fun he => hb.2.1 he.symm,
      Bool.false_and, Bool.false_and]
  · rw [show ltEsc.drop 3 = [';'] from rfl,
      isPrefixOf_cons_cons, isPrefixOf_cons_cons,
      show ((';' : Char) == a) = false by
        simp only [beq_eq_false_iff_ne, ne_eq]
        exact fun he => ha.2.2 he.symm,
      show ((';' : Char) == b) = false by
        simp only [beq_eq_false_iff_ne, ne_eq]
        exact fun he => hb.2.2 he.symm,
      Bool.false_and, Bool.false_and]

theorem splitAtTicks_spec :
    ∀ (s content rest : List Char), splitAtTicks s = some (content, rest) →
      s = (content ++ tickstr) ++ rest := by
  intro s
  induction s with
  | nil => intro content rest h; cases h
  | cons c t ih =>
    intro content rest h
    rw [splitAtTicks] at h
    split at h
    · rename_i hp
      cases h
      have h3 : tickstr.length = 3 := rfl
      conv_lhs => rw [← prefix_restore tickstr (c :: t) hp, h3]
      simp
    · cases hrec : splitAtTicks t with
      | none => rw [hrec] at h; cases h
      | some pr =>
        obtain ⟨pc, pr2⟩ := pr
        rw [hrec] at h
        have hspec := ih pc pr2 hrec
        rw [Option.some.injEq, Prod.mk.injEq] at h
        obtain ⟨hA, hB⟩ := h
        subst hA
        subst hB
        rw [show ((c :: pc) ++ tickstr) ++ pr2 = c :: ((pc ++ tickstr) ++ pr2)
          by simp]
        rw [← hspec]

theorem fenceFind_spec (r content rest : List Char)
    (h : fenceFind r = some (content, rest)) :
    ∃ lang b2, r = lang ++ '\n' :: b2 ∧ ('&' : Char) ∉ lang ∧
      b2 = (content ++ tickstr) ++ rest := by
  rw [fenceFind] at h
  split at h
  · rename_i b2 heq
    refine ⟨r.takeWhile isWordChar, b2, ?_, ?_, splitAtTicks_spec b2 _ _ h⟩
    · conv_lhs => rw [← List.takeWhile_append_dropWhile (p := isWordChar)
        (l := r), heq]
    · intro hm
      have := List.mem_takeWhile_imp hm
      exact absurd this (by decide)
  · cases h

theorem fenceScan_nil : fenceScan [] = [] := by
  rw [fenceScan]

theorem fenceScan_found (c : Char) (t content rest : List Char)
    (h1 : tickstr.isPrefixOf (c :: t) = true)
    (h2 : fenceFind ((c :: t).drop 3) = some (content, rest)) :
    fenceScan (c :: t) = ['<', 'c', 'o', 'd', 'e', '>'] ++ content ++
      ['<', '/', 'c', 'o', 'd', 'e', '>'] ++ fenceScan rest := by
  rw [fenceScan]
  rw [if_pos h1, h2]

theorem fenceScan_nofind (c : Char) (t : List Char)
    (h1 : tickstr.isPrefixOf (c :: t) = true)
    (h2 : fenceFind ((c :: t).drop 3) = none) :
    fenceScan (c :: t) = c :: fenceScan t := by
  rw [fenceScan]
  rw [if_pos h1, h2]

theorem fenceScan_skip (c : Char) (t : List Char)
    (h1 : ¬ tickstr.isPrefixOf (c :: t) = true) :
    fenceScan (c :: t) = c :: fenceScan t := by
  rw [fenceScan]
  rw [if_neg h1]

/-- The code-fence pass preserves `&lt;` occurrences and partial-match
prefixes: inserted tags start with `<` and contain no `&`, and the
consumed fence delimiters and language word contain no `&`. -/
theorem fenceScan_count :
    ∀ s : List Char,
      countOcc ltEsc (fenceScan s) = countOcc ltEsc s ∧
      ∀ j, 1 ≤ j → j ≤ 3 →
        ((ltEsc.drop j).isPrefixOf (fenceScan s))
          = ((ltEsc.drop j).isPrefixOf s) := by
  intro s
  induction s using fenceScan.induct with
  | case1 =>
    rw [fenceScan_nil]
    exact ⟨rfl, fun j _ _ => rfl⟩
  | case2 c t h1 content rest h2 ih =>
    rw [fenceScan_found c t content rest h1 h2]
    obtain ⟨ihc, ihp⟩ := ih
    obtain ⟨lang, b2, hr, hlamp, hb2⟩ := fenceFind_spec _ _ _ h2
    have hc : c = backquote := by
      rw [show tickstr = backquote :: [backquote, backquote] from rfl,
        isPrefixOf_cons_cons] at h1
      exact (beq_iff_eq.mp ((Bool.and_eq_true _ _).mp h1).1).symm
    have hsplit : c :: t
        = tickstr ++ (lang ++ '\n' :: ((content ++ tickstr) ++ rest)) := by
      have h3 : tickstr.length = 3 := rfl
      conv_lhs => rw [← prefix_restore tickstr (c :: t) h1, h3, hr, hb2]
    constructor
    · rw [show (['<', 'c', 'o', 'd', 'e', '>'] : List Char) ++ content ++
          ['<', '/', 'c', 'o', 'd', 'e', '>'] ++ fenceScan rest
        = ['<', 'c', 'o', 'd', 'e', '>'] ++ (content ++
          (['<', '/', 'c', 'o', 'd', 'e', '>'] ++ fenceScan rest)) by simp]
      rw [countOcc_noamp_append _ _ (by decide)]
      rw [countOcc_append_head_lt content
        ((['<', '/', 'c', 'o', 'd', 'e', '>'] : List Char) ++ fenceScan rest)
        '<' rfl ⟨by decide, by decide, by decide⟩]
      rw [countOcc_noamp_append (['<', '/', 'c', 'o', 'd', 'e', '>'] :
        List Char) _ (by decide), ihc]
      conv_rhs => rw [hsplit]
      rw [countOcc_noamp_append tickstr _ (by decide)]
      rw [countOcc_noamp_append lang _ hlamp]
      rw [countOcc_cons_not_amp _ _ (by decide)]
      rw [List.append_assoc content tickstr rest]
      rw [countOcc_append_head_lt content (tickstr ++ rest) backquote rfl
        ⟨by decide, by decide, by decide⟩]
      rw [countOcc_noamp_append tickstr rest (by decide)]
    · have hL : (['<', 'c', 'o', 'd', 'e', '>'] : List Char) ++ content ++
          ['<', '/', 'c', 'o', 'd', 'e', '>'] ++ fenceScan rest
        = '<' :: (['c', 'o', 'd', 'e', '>'] ++ content ++
          ['<', '/', 'c', 'o', 'd', 'e', '>'] ++ fenceScan rest) := by simp
      rw [hL, hc]
      exact drop_isPrefixOf_blocked '<' backquote _ t
        ⟨by decide, by decide, by decide⟩ ⟨by decide, by decide, by decide⟩
  | case3 c t h1 h2 ih =>
    rw [fenceScan_nofind c t h1 h2]
    exact consStep_count c t _ ih.1 ih.2
  | case4 c t h1 ih =>
    rw [fenceScan_skip c t h1]
    exact consStep_count c t _ ih.1 ih.2

theorem linkFind_spec :
    ∀ (s c1 c2 rest : List Char), linkFind s = some (c1, c2, rest) →
      s = c1 ++ ']' :: '(' :: ((c2 ++ [')']) ++ rest) := by
  intro s
  induction s with
  | nil => intro c1 c2 rest h; cases h
  | cons c t ih =>
    intro c1 c2 rest h
    rw [linkFind] at h
    split at h
    · cases h
    · split at h
      · rename_i hpb
        cases hfc : findClose [')'] (t.drop 2) with
        | some pr =>
          obtain ⟨q1, q2⟩ := pr
          rw [hfc] at h
          obtain ⟨hq, _, _⟩ := findClose_spec [')'] _ _ _ hfc
          rw [Option.some.injEq, Prod.mk.injEq, Prod.mk.injEq] at h
          obtain ⟨hA, hB, hC⟩ := h
          have ht : t = ']' :: '(' :: t.drop 2 := by
            conv_lhs => rw [← prefix_restore [']', '('] t hpb]
            rfl
          rw [← hA, ← hB, ← hC]
          rw [show ([c] ++ ']' :: '(' :: ((q1 ++ [')']) ++ q2))
            = c :: (']' :: '(' :: ((q1 ++ [')']) ++ q2)) from rfl]
          rw [show (q1 ++ [')']) ++ q2 = t.drop 2 from hq.symm, ← ht]
        | none =>
          rw [hfc] at h
          cases hrec : linkFind t with
          | none => rw [hrec] at h; cases h
          | some pr =>
            obtain ⟨p1, p2, p3⟩ := pr
            rw [hrec] at h
            have hspec := ih p1 p2 p3 hrec
            rw [Option.some.injEq, Prod.mk.injEq, Prod.mk.injEq] at h
            obtain ⟨hA, hB, hC⟩ := h
            subst hA
            subst hB
            subst hC
            rw [List.cons_append, ← hspec]
      · cases hrec : linkFind t with
        | none => rw [hrec] at h; cases h
        | some pr =>
          obtain ⟨p1, p2, p3⟩ := pr
          rw [hrec] at h
          have hspec := ih p1 p2 p3 hrec
          rw [Option.some.injEq, Prod.mk.injEq, Prod.mk.injEq] at h
          obtain ⟨hA, hB, hC⟩ := h
          subst hA
          subst hB
          subst hC
          rw [List.cons_append, ← hspec]

theorem linkScan_nil : linkScan [] = [] := by
  rw [linkScan]

theorem linkScan_found (t c1 c2 rest : List Char)
    (h2 : linkFind t = some (c1, c2, rest)) :
    linkScan ('[' :: t) = ['<', 'a', ' ', 'h', 'r', 'e', 'f', '=', '"'] ++
      c2 ++ ['"', '>'] ++ c1 ++ ['<', '/', 'a', '>'] ++ linkScan rest := by
  rw [linkScan]
  rw [if_pos rfl, h2]

theorem linkScan_nofind (t : List Char) (h2 : linkFind t = none) :
    linkScan ('[' :: t) = '[' :: linkScan t := by
  rw [linkScan]
  rw [if_pos rfl, h2]

theorem linkScan_skip (c : Char) (t : List Char) (h1 : ¬ c = '[') :
    linkScan (c :: t) = c :: linkScan t := by
  rw [linkScan]
  rw [if_neg h1]

/-- The link pass preserves `&lt;` occurrences and partial-match
prefixes: the inserted anchor tags contain no `&`, both captured groups
are carried over verbatim, and the consumed punctuation marks are not
`&` and do not start with `l`, `t` or `;`. -/
theorem linkScan_count :
    ∀ s : List Char,
      countOcc ltEsc (linkScan s) = countOcc ltEsc s ∧
      ∀ j, 1 ≤ j → j ≤ 3 →
        ((ltEsc.drop j).isPrefixOf (linkScan s))
          = ((ltEsc.drop j).isPrefixOf s) := by
  intro s
  induction s using linkScan.induct with
  | case1 =>
    rw [linkScan_nil]
    exact ⟨rfl, fun j _ _ => rfl⟩
  | case2 t c1 c2 rest h2 ih =>
    rw [linkScan_found t c1 c2 rest h2]
    obtain ⟨ihc, ihp⟩ := ih
    have hspec := linkFind_spec t c1 c2 rest h2
    constructor
    · rw [show (['<', 'a', ' ', 'h', 'r', 'e', 'f', '=', '"'] : List Char) ++
          c2 ++ ['"', '>'] ++ c1 ++ ['<', '/', 'a', '>'] ++ linkScan rest
        = ['<', 'a', ' ', 'h', 'r', 'e', 'f', '=', '"'] ++ (c2 ++
          (['"', '>'] ++ (c1 ++ (['<', '/', 'a', '>'] ++ linkScan rest))))
        by simp]
      rw [countOcc_noamp_append _ _ (by decide)]
      rw [countOcc_append_head_lt c2
        ((['"', '>'] : List Char) ++ (c1 ++ (['<', '/', 'a', '>'] ++
          linkScan rest))) '"' rfl ⟨by decide, by decide, by decide⟩]
      rw [countOcc_noamp_append (['"', '>'] : List Char) _ (by decide)]
      rw [countOcc_append_head_lt c1
        ((['<', '/', 'a', '>'] : List Char) ++ linkScan rest) '<' rfl
        ⟨by decide, by decide, by decide⟩]
      rw [countOcc_noamp_append (['<', '/', 'a', '>'] : List Char) _
        (by decide), ihc]
      conv_rhs => rw [show ('[' :: t)
        = '[' :: (c1 ++ ']' :: '(' :: ((c2 ++ [')']) ++ rest)) by rw [← hspec]]
      rw [countOcc_cons_not_amp _ _ (by decide)]
      rw [countOcc_append_head_lt c1 (']' :: '(' :: ((c2 ++ [')']) ++ rest))
        ']' rfl ⟨by decide, by decide, by decide⟩]
      rw [countOcc_cons_not_amp _ _ (by decide),
        countOcc_cons_not_amp _ _ (by decide)]
      rw [List.append_assoc c2 [')'] rest]
      rw [countOcc_append_head_lt c2 (([')'] : List Char) ++ rest) ')' rfl
        ⟨by decide, by decide, by decide⟩]
      rw [show (([')'] : List Char) ++ rest) = ')' :: rest from rfl]
      rw [countOcc_cons_not_amp _ _ (by decide)]
      omega
    · rw [show (['<', 'a', ' ', 'h', 'r', 'e', 'f', '=', '"'] : List Char) ++
          c2 ++ ['"', '>'] ++ c1 ++ ['<', '/', 'a', '>'] ++ linkScan rest
        = '<' :: ((['a', ' ', 'h', 'r', 'e', 'f', '=', '"'] : List Char) ++
          c2 ++ ['"', '>'] ++ c1 ++ ['<', '/', 'a', '>'] ++ linkScan rest)
        by simp]
      exact drop_isPrefixOf_blocked '<' '[' _ t
        ⟨by decide, by decide, by decide⟩ ⟨by decide, by decide, by decide⟩
  | case3 t h2 ih =>
    rw [linkScan_nofind t h2]
    exact consStep_count '[' t _ ih.1 ih.2
  | case4 c t h1 ih =>
    rw [linkScan_skip c t h1]
    exact consStep_count c t _ ih.1 ih.2

theorem head_blocked_cons (a : Char) (L : List Char) (h : ltBlocked a) :
    ∀ c, ((a :: L).head? = some c) → ltBlocked c := by
  intro c hc
  have hac : a = c := by simpa using hc
  subst hac
  exact h

theorem scanPair_count1 (d openT closeT : List Char)
    (hdne : d ≠ []) (hdamp : '&' ∉ d)
    (hdhd : ∀ c, d.head? = some c → ltBlocked c)
    (hone : openT ≠ []) (hoamp : '&' ∉ openT)
    (hohd : ∀ c, openT.head? = some c → ltBlocked c)
    (hcne : closeT ≠ []) (hcamp : '&' ∉ closeT)
    (hchd : ∀ c, closeT.head? = some c → ltBlocked c) (s : List Char) :
    countOcc ltEsc (scanPair d openT closeT s) = countOcc ltEsc s :=
  (scanPair_count d openT closeT hdne hdamp hdhd hone hoamp hohd hcne
    hcamp hchd s).1

theorem fenceScan_count1 (s : List Char) :
    countOcc ltEsc (fenceScan s) = countOcc ltEsc s :=
  (fenceScan_count s).1

theorem linkScan_count1 (s : List Char) :
    countOcc ltEsc (linkScan s) = countOcc ltEsc s :=
  (linkScan_count s).1

/-! ### Identity of the structural passes on trigger-free text -/

theorem scanPair_id (d openT closeT : List Char) (dh : Char)
    (dt : List Char) (hdeq : d = dh :: dt) :
    ∀ s, dh ∉ s → scanPair d openT closeT s = s := by
  intro s
  induction s using scanPair.induct d openT closeT with
  | case1 =>
    intro _
    rw [scanPair_nil]
  | case2 c t h1 content rest h2 ih =>
    intro hs
    exfalso
    rw [hdeq, isPrefixOf_cons_cons] at h1
    have hdc : dh = c := beq_iff_eq.mp ((Bool.and_eq_true _ _).mp h1).1
    exact hs (by rw [hdc]; exact List.mem_cons_self c t)
  | case3 c t h1 h2 ih =>
    intro hs
    exfalso
    rw [hdeq, isPrefixOf_cons_cons] at h1
    have hdc : dh = c := beq_iff_eq.mp ((Bool.and_eq_true _ _).mp h1).1
    exact hs (by rw [hdc]; exact List.mem_cons_self c t)
  | case4 c t h1 ih =>
    intro hs
    rw [scanPair_skip d openT closeT c t h1,
      ih (fun hm => hs (List.mem_cons_of_mem c hm))]

theorem fenceScan_id : ∀ s, backquote ∉ s → fenceScan s = s := by
  intro s
  induction s using fenceScan.induct with
  | case1 =>
    intro _
    rw [fenceScan_nil]
  | case2 c t h1 content rest h2 ih =>
    intro hs
    exfalso
    rw [show tickstr = backquote :: [backquote, backquote] from rfl,
      isPrefixOf_cons_cons] at h1
    have hdc : backquote = c :=
      beq_iff_eq.mp ((Bool.and_eq_true _ _).mp h1).1
    exact hs (by rw [hdc]; exact List.mem_cons_self c t)
  | case3 c t h1 h2 ih =>
    intro hs
    exfalso
    rw [show tickstr = backquote :: [backquote, backquote] from rfl,
      isPrefixOf_cons_cons] at h1
    have hdc : backquote = c :=
      beq_iff_eq.mp ((Bool.and_eq_true _ _).mp h1).1
    exact hs (by rw [hdc]; exact List.mem_cons_self c t)
  | case4 c t h1 ih =>
    intro hs
    rw [fenceScan_skip c t h1,
      ih (fun hm => hs (List.mem_cons_of_mem c hm))]

theorem linkScan_id : ∀ s, '[' ∉ s → linkScan s = s := by
  intro s
  induction s using linkScan.induct with
  | case1 =>
    intro _
    rw [linkScan_nil]
  | case2 t c1 c2 rest h2 ih =>
    intro hs
    exact absurd (List.mem_cons_self '[' t) hs
  | case3 t h2 ih =>
    intro hs
    exact absurd (List.mem_cons_self '[' t) hs
  | case4 c t h1 ih =>
    intro hs
    rw [linkScan_skip c t h1,
      ih (fun hm => hs (List.mem_cons_of_mem c hm))]

/-- C8: in `convertMarkdownToHTML` the escaping of the reserved
characters `&`, `<`, `>` is applied before every structural
substitution. (i) For every input, the output contains exactly one
`&lt;` occurrence per literal `<` of the input: the structural passes
neither re-escape the tags they insert nor create or destroy an `&lt;`
occurrence. (ii) On input free of the markup trigger characters the
whole conversion equals the escaping pass alone, so every literal `<`
appears as `&lt;` and the output contains no raw `<`. -/
theorem escape_before_markup :
    (∀ s : List Char,
      countOcc ltEsc (convertMarkdownToHTML s) = s.count '<') ∧
    (∀ s : List Char,
      (∀ c ∈ s, c ∉ (['#', '*', '_', '~', backquote, '[', '-'] : List Char)) →
      convertMarkdownToHTML s = escapeHTML s ∧
        '<' ∉ convertMarkdownToHTML s) := by
  constructor
  · intro s
    unfold convertMarkdownToHTML
    rw [countOcc_onLines bqLine bqLine_count,
      countOcc_onLines olLine (fun l => by rw [olLine_eq]),
      countOcc_onLines ulLine ulLine_count,
      linkScan_count1,
      scanPair_count1 [backquote] ['<', 'c', 'o', 'd', 'e', '>']
        ['<', '/', 'c', 'o', 'd', 'e', '>'] (by simp) (by decide)
        (head_blocked_cons backquote _ ⟨by decide, by decide, by decide⟩)
        (by simp) (by decide)
        (head_blocked_cons '<' _ ⟨by decide, by decide, by decide⟩)
        (by simp) (by decide)
        (head_blocked_cons '<' _ ⟨by decide, by decide, by decide⟩),
      fenceScan_count1,
      scanPair_count1 ['~', '~'] ['<', 's', '>'] ['<', '/', 's', '>']
        (by simp) (by decide)
        (head_blocked_cons '~' _ ⟨by decide, by decide, by decide⟩)
        (by simp) (by decide)
        (head_blocked_cons '<' _ ⟨by decide, by decide, by decide⟩)
        (by simp) (by decide)
        (head_blocked_cons '<' _ ⟨by decide, by decide, by decide⟩),
      scanPair_count1 ['_'] ['<', 'i', '>'] ['<', '/', 'i', '>']
        (by simp) (by decide)
        (head_blocked_cons '_' _ ⟨by decide, by decide, by decide⟩)
        (by simp) (by decide)
        (head_blocked_cons '<' _ ⟨by decide, by decide, by decide⟩)
        (by simp) (by decide)
        (head_blocked_cons '<' _ ⟨by decide, by decide, by decide⟩),
      scanPair_count1 ['*'] ['<', 'i', '>'] ['<', '/', 'i', '>']
        (by simp) (by decide)
        (head_blocked_cons '*' _ ⟨by decide, by decide, by decide⟩)
        (by simp) (by decide)
        (head_blocked_cons '<' _ ⟨by decide, by decide, by decide⟩)
        (by simp) (by decide)
        (head_blocked_cons '<' _ ⟨by decide, by decide, by decide⟩),
      scanPair_count1 ['_', '_'] ['<', 'b', '>'] ['<', '/', 'b', '>']
        (by simp) (by decide)
        (head_blocked_cons '_' _ ⟨by decide, by decide, by decide⟩)
        (by simp) (by decide)
        (head_blocked_cons '<' _ ⟨by decide, by decide, by decide⟩)
        (by simp) (by decide)
        (head_blocked_cons '<' _ ⟨by decide, by decide, by decide⟩),
      scanPair_count1 ['*', '*'] ['<', 'b', '>'] ['<', '/', 'b', '>']
        (by simp) (by decide)
        (head_blocked_cons '*' _ ⟨by decide, by decide, by decide⟩)
        (by simp) (by decide)
        (head_blocked_cons '<' _ ⟨by decide, by decide, by decide⟩)
        (by simp) (by decide)
        (head_blocked_cons '<' _ ⟨by decide, by decide, by decide⟩),
      countOcc_onLines (headerLine 1) (headerLine_count 1 (by decide)),
      countOcc_onLines (headerLine 2) (headerLine_count 2 (by decide)),
      countOcc_onLines (headerLine 3) (headerLine_count 3 (by decide)),
      countOcc_onLines (headerLine 4) (headerLine_count 4 (by decide)),
      countOcc_onLines (headerLine 5) (headerLine_count 5 (by decide)),
      countOcc_onLines (headerLine 6) (headerLine_count 6 (by decide)),
      countOcc_ltEsc_escapeHTML]
  · intro s hfree
    have hmem : ∀ τ : Char,
        τ ∈ (['#', '*', '_', '~', backquote, '[', '-'] : List Char) →
        τ ∉ escapeHTML s := by
      intro τ hτ hmemE
      rcases mem_escapeHTML τ _ hmemE with h | h
      · exact hfree τ h hτ
      · simp only [List.mem_cons, List.not_mem_nil, or_false] at hτ
        rcases hτ with rfl | rfl | rfl | rfl | rfl | rfl | rfl <;>
          revert h <;> decide
    have hhash : '#' ∉ escapeHTML s := hmem '#' (by decide)
    have hstar : '*' ∉ escapeHTML s := hmem '*' (by decide)
    have hund : '_' ∉ escapeHTML s := hmem '_' (by decide)
    have htil : '~' ∉ escapeHTML s := hmem '~' (by decide)
    have hbq : backquote ∉ escapeHTML s := hmem backquote (by decide)
    have hlb : '[' ∉ escapeHTML s := hmem '[' (by decide)
    have hdash : '-' ∉ escapeHTML s := hmem '-' (by decide)
    have hgt := gt_not_mem_escapeHTML s
    have hlt := lt_not_mem_escapeHTML s
    have h6 : onLines (headerLine 6) (escapeHTML s) = escapeHTML s :=
      onLines_id _ _ (fun l hl => headerLine_id 6 (by omega) l
        (fun hm => hhash (mem_of_mem_splitOnChar '\n' '#' _ l hl hm)))
    have h5 : onLines (headerLine 5) (escapeHTML s) = escapeHTML s :=
      onLines_id _ _ (fun l hl => headerLine_id 5 (by omega) l
        (fun hm => hhash (mem_of_mem_splitOnChar '\n' '#' _ l hl hm)))
    have h4 : onLines (headerLine 4) (escapeHTML s) = escapeHTML s :=
      onLines_id _ _ (fun l hl => headerLine_id 4 (by omega) l
        (fun hm => hhash (mem_of_mem_splitOnChar '\n' '#' _ l hl hm)))
    have h3 : onLines (headerLine 3) (escapeHTML s) = escapeHTML s :=
      onLines_id _ _ (fun l hl => headerLine_id 3 (by omega) l
        (fun hm => hhash (mem_of_mem_splitOnChar '\n' '#' _ l hl hm)))
    have h2 : onLines (headerLine 2) (escapeHTML s) = escapeHTML s :=
      onLines_id _ _ (fun l hl => headerLine_id 2 (by omega) l
        (fun hm => hhash (mem_of_mem_splitOnChar '\n' '#' _ l hl hm)))
    have h1 : onLines (headerLine 1) (escapeHTML s) = escapeHTML s :=
      onLines_id _ _ (fun l hl => headerLine_id 1 (by omega) l
        (fun hm => hhash (mem_of_mem_splitOnChar '\n' '#' _ l hl hm)))
    have hb2 : scanPair ['*', '*'] ['<', 'b', '>'] ['<', '/', 'b', '>']
        (escapeHTML s) = escapeHTML s :=
      scanPair_id _ _ _ '*' ['*'] rfl _ hstar
    have hb1 : scanPair ['_', '_'] ['<', 'b', '>'] ['<', '/', 'b', '>']
        (escapeHTML s) = escapeHTML s :=
      scanPair_id _ _ _ '_' ['_'] rfl _ hund
    have hi1 : scanPair ['*'] ['<', 'i', '>'] ['<', '/', 'i', '>']
        (escapeHTML s) = escapeHTML s :=
      scanPair_id _ _ _ '*' [] rfl _ hstar
    have hi2 : scanPair ['_'] ['<', 'i', '>'] ['<', '/', 'i', '>']
        (escapeHTML s) = escapeHTML s :=
      scanPair_id _ _ _ '_' [] rfl _ hund
    have hst : scanPair ['~', '~'] ['<', 's', '>'] ['<', '/', 's', '>']
        (escapeHTML s) = escapeHTML s :=
      scanPair_id _ _ _ '~' ['~'] rfl _ htil
    have hfe : fenceScan (escapeHTML s) = escapeHTML s :=
      fenceScan_id _ hbq
    have hcd : scanPair [backquote] ['<', 'c', 'o', 'd', 'e', '>']
        ['<', '/', 'c', 'o', 'd', 'e', '>'] (escapeHTML s) = escapeHTML s :=
      scanPair_id _ _ _ backquote [] rfl _ hbq
    have hlk : linkScan (escapeHTML s) = escapeHTML s :=
      linkScan_id _ hlb
    have hul : onLines ulLine (escapeHTML s) = escapeHTML s :=
      onLines_id _ _ (fun l hl => ulLine_id l
        (fun hm => hdash (mem_of_mem_splitOnChar '\n' '-' _ l hl hm))
        (fun hm => hstar (mem_of_mem_splitOnChar '\n' '*' _ l hl hm)))
    have hol : onLines olLine (escapeHTML s) = escapeHTML s :=
      onLines_id _ _ (fun l _ => olLine_eq l)
    have hbql : onLines bqLine (escapeHTML s) = escapeHTML s :=
      onLines_id _ _ (fun l hl => bqLine_id l
        (fun hm => hgt (mem_of_mem_splitOnChar '\n' '>' _ l hl hm)))
    have heq : convertMarkdownToHTML s = escapeHTML s := by
      unfold convertMarkdownToHTML
      rw [h6, h5, h4, h3, h2, h1, hb2, hb1, hi1, hi2, hst, hfe, hcd, hlk,
        hul, hol, hbql]
    exact ⟨heq, by rw [heq]; exact hlt⟩

/-- Witness for C8 at a concrete input containing a literal `<` and no
markup trigger characters. -/
theorem escape_before_markup_witness :
    countOcc ltEsc (convertMarkdownToHTML ['a', '<', 'b'])
        = (['a', '<', 'b'] : List Char).count '<' ∧
      convertMarkdownToHTML ['a', '<', 'b'] = escapeHTML ['a', '<', 'b'] ∧
      '<' ∉ convertMarkdownToHTML ['a', '<', 'b'] :=
  ⟨escape_before_markup.1 ['a', '<', 'b'],
    escape_before_markup.2 ['a', '<', 'b'] (by decide)⟩

end Bot
